import Mathlib

/-!
Shallow embedding of the data-joining and normalization layer of the
sdg-dashboard repository: the CSV parser (`src/utils/csv.ts`), the
crosswalk builder (`src/utils/crosswalk.ts`), the year/category value
aggregator (`src/hooks/useMsaValues.ts`) and the point joiner with its
identifier normalizers (`src/components/SdgChoropleth.tsx`).

Strings are modelled as Lean `String`s manipulated through their
character lists.  JavaScript numbers that the code parses from CSV cells
are modelled as `Option ℚ`: `none` stands for `NaN` (the code only ever
asks `Number.isFinite` / `Number.isNaN` of them).  JavaScript objects
(`Record<string, …>`) are modelled as association lists with
first-match lookup and in-place overwriting assignment, which preserves
the insertion order that `Object.keys` / `Map` iteration exposes.
-/

/-! ## JavaScript string primitives -/

/-- JS whitespace (the `\s` class and `String.trim`), restricted to the
common characters: space, tab, carriage return, newline. -/
def wsChar (c : Char) : Bool := c.isWhitespace

/-- A double or single quote character (the class `["']` used by `unquote`).
The apostrophe is referred to by its code point 39. -/
def isQuoteB (c : Char) : Bool := c == '"' || c.toNat == 39

/-- Drop the longest run of characters satisfying `p` from the end of the
list (mirrors a `…$`-anchored regex replace / the right half of `trim`). -/
def dropTrailWhile (p : Char → Bool) : List Char → List Char
  | [] => []
  | c :: rest =>
    match dropTrailWhile p rest with
    | [] => if p c then [] else [c]
    | r => c :: r

/-- JS `String.prototype.trim` on a character list. -/
def jsTrimL (l : List Char) : List Char := dropTrailWhile wsChar (l.dropWhile wsChar)

/-- JS `String.prototype.trim`. -/
def jsTrimStr (s : String) : String := String.mk (jsTrimL s.toList)

/-- The step `replace(/^["']+|["']+$/g, "")`: strip any leading and trailing run of
quote characters. -/
def stripQuoteEnds (l : List Char) : List Char :=
  dropTrailWhile isQuoteB (l.dropWhile isQuoteB)

/-- The helper `unquote(s)` (defined identically in `useMsaValues.ts` and
`SdgChoropleth.tsx`): trim, then strip leading/trailing quote runs. -/
def unquote (s : String) : String := String.mk (stripQuoteEnds (jsTrimL s.toList))

/-- One step of `replace(/\s+/g, " ")`: the flag records whether the
previous character was whitespace (in which case further whitespace is
swallowed instead of emitting another space). -/
def collapseWsAux : Bool → List Char → List Char
  | _, [] => []
  | prevWs, c :: rest =>
    if wsChar c then
      if prevWs then collapseWsAux true rest
      else ' ' :: collapseWsAux true rest
    else c :: collapseWsAux false rest

/-- The step `replace(/\s+/g, " ")`: collapse every whitespace run to one space. -/
def collapseWs (l : List Char) : List Char := collapseWsAux false l

/-- The step `replace(/[–—]/g, "-")` on one character. -/
def dashFix (c : Char) : Char := if c = '–' ∨ c = '—' then '-' else c

/-- The normalizer `canon(s)` on a character list: lowercase, en/em dashes to `-`,
remove `.`, collapse whitespace runs to a single space, trim. -/
def canonL (l : List Char) : List Char :=
  jsTrimL (collapseWs (((l.map Char.toLower).map dashFix).filter (fun c => c ≠ '.')))

/-- The normalizer `canon(s)` (defined identically in `useMsaValues.ts` and
`SdgChoropleth.tsx`). -/
def canon (s : String) : String := String.mk (canonL s.toList)

/-- JS `String.prototype.toUpperCase`, ASCII range. -/
def strUpper (s : String) : String := String.mk (s.toList.map Char.toUpper)

/-- JS `String.prototype.toLowerCase`, ASCII range. -/
def strLower (s : String) : String := String.mk (s.toList.map Char.toLower)

/-- JS `String.prototype.padStart(n, c)` on a character list. -/
def padStartL (n : ℕ) (c : Char) (l : List Char) : List Char :=
  List.replicate (n - l.length) c ++ l

/-- The padding `padStart(2, "0")`. -/
def padTwo (s : String) : String := String.mk (padStartL 2 '0' s.toList)

/-- The padding `padStart(3, "0")`. -/
def padThree (s : String) : String := String.mk (padStartL 3 '0' s.toList)

/-- JS `String.prototype.split(sep)` for a one-character separator: JS split
never returns an empty array and keeps empty fields. -/
def splitOnChar (sep : Char) : List Char → List (List Char)
  | [] => [[]]
  | c :: rest =>
    if c = sep then [] :: splitOnChar sep rest
    else
      match splitOnChar sep rest with
      | [] => [[c]]
      | l :: ls => (c :: l) :: ls

/-- The step `text.replace(/\r\n/g, "\n")`. -/
def normNewlines : List Char → List Char
  | '\r' :: '\n' :: rest => '\n' :: normNewlines rest
  | c :: rest => c :: normNewlines rest
  | [] => []

/-- Numeric value of a list of decimal digit characters (most significant
first), as `Number` accumulates them. -/
def digitsToNat (l : List Char) : ℕ := l.foldl (fun a c => a * 10 + (c.toNat - 48)) 0

/-- Model of the JS `Number(string)` conversion on the decimal forms the
data files use: optional sign, integer digits, optional `.` and fraction
digits; the empty/whitespace-only string converts to `0`; anything else
(including exponent or hex forms, which this model does not cover) is
`none`, standing for `NaN`. -/
def jsNumber (s : String) : Option ℚ :=
  let t := jsTrimL s.toList
  if t = [] then some 0
  else
    let (neg, body) :=
      match t with
      | '-' :: r => (true, r)
      | '+' :: r => (false, r)
      | r => (false, r)
    let intPart := body.takeWhile Char.isDigit
    let rest := body.dropWhile Char.isDigit
    match rest with
    | [] =>
      if intPart = [] then none
      else some (if neg then -(digitsToNat intPart : ℚ) else (digitsToNat intPart : ℚ))
    | '.' :: frac =>
      if frac.all Char.isDigit ∧ ¬(intPart = [] ∧ frac = []) then
        let v : ℚ := (digitsToNat intPart : ℚ) + (digitsToNat frac : ℚ) / (10 : ℚ) ^ frac.length
        some (if neg then -v else v)
      else none
    | _ => none

/-- Decimal string of a natural number (fuel-driven). -/
def natToStrAux : ℕ → ℕ → List Char
  | 0, _ => []
  | fuel + 1, n =>
    if n < 10 then [Char.ofNat (48 + n)]
    else natToStrAux fuel (n / 10) ++ [Char.ofNat (48 + n % 10)]

/-- Decimal string of a natural number, as JS `String(n)` prints it. -/
def natToStr (n : ℕ) : String := String.mk (natToStrAux (n + 1) n)

/-- Decimal string of an integer, as JS `String(n)` prints it. -/
def intToStr : Int → String
  | .ofNat n => natToStr n
  | .negSucc m => "-" ++ natToStr (m + 1)

/-! ## JavaScript object / Map model -/

/-- A parsed CSV row (`Record<string, string>`): association list with
unique keys, looked up by first match. -/
abbrev Row := List (String × String)

/-- Property read `row[k]`: `none` models `undefined`. -/
def rowGet (row : Row) (k : String) : Option String :=
  (row.find? (fun kv => kv.1 = k)).map (·.2)

/-- Property/`Map` assignment `m[k] = v` / `m.set(k, v)`: overwrite in
place if the key exists, else append (insertion order preserved). -/
def jsSet {α : Type} : List (String × α) → String → α → List (String × α)
  | [], k, v => [(k, v)]
  | (k', v') :: rest, k, v =>
    if k' = k then (k, v) :: rest else (k', v') :: jsSet rest k v

/-- JS `Map.get` / object read on an assoc list. -/
def lookupA {α : Type} (m : List (String × α)) (k : String) : Option α :=
  (m.find? (fun kv => kv.1 = k)).map (·.2)

/-- Append `x` to the list stored under `k`, creating the entry at the
end if absent (the `(map[k] ??= []).push(x)` idiom). -/
def pushEntry {α : Type} : List (String × List α) → String → α → List (String × List α)
  | [], k, x => [(k, [x])]
  | (k', xs) :: rest, k, x =>
    if k' = k then (k', xs ++ [x]) :: rest else (k', xs) :: pushEntry rest k x

/-- Worker for `setDedup`, carrying the elements already emitted. -/
def setDedupGo {α : Type} [DecidableEq α] (seen : List α) : List α → List α
  | [] => []
  | x :: r => if x ∈ seen then setDedupGo seen r else x :: setDedupGo (x :: seen) r

/-- JS `Array.from(new Set(…))`: deduplicate keeping first occurrences. -/
def setDedup {α : Type} [DecidableEq α] (l : List α) : List α := setDedupGo [] l

/-- Lexicographic comparison of strings by code points, the order JS
`Array.prototype.sort()` uses by default. -/
def strLeL : List Char → List Char → Bool
  | [], _ => true
  | _ :: _, [] => false
  | a :: as, b :: bs =>
    if a.toNat < b.toNat then true
    else if b.toNat < a.toNat then false
    else strLeL as bs

/-- Comparison `strLeL` on strings. -/
def strLe (s t : String) : Bool := strLeL s.toList t.toList

/-- Insert into a `strLe`-sorted list. -/
def insertSorted (x : String) : List String → List String
  | [] => [x]
  | y :: r => if strLe x y then x :: y :: r else y :: insertSorted x r

/-- JS `Array.prototype.sort()` on strings: lexicographic ascending.
On the deduplicated lists it is applied to, any correct sort produces
this result. -/
def sortStr : List String → List String
  | [] => []
  | x :: r => insertSorted x (sortStr r)

/-! ## CSV parser (`src/utils/csv.ts`) -/

/-- The quoted-field line splitter `parseCsvLine`, scanning with an
`inQuotes` flag; `cur` is the field accumulated so far. -/
def parseCsvLineAux : Bool → List Char → List Char → List (List Char)
  | _, cur, [] => [cur]
  | true, cur, '"' :: '"' :: rest2 => parseCsvLineAux true (cur ++ ['"']) rest2
  | true, cur, '"' :: rest => parseCsvLineAux false cur rest
  | true, cur, c :: rest => parseCsvLineAux true (cur ++ [c]) rest
  | false, cur, '"' :: rest => parseCsvLineAux true cur rest
  | false, cur, ',' :: rest => cur :: parseCsvLineAux false [] rest
  | false, cur, c :: rest => parseCsvLineAux false (cur ++ [c]) rest

/-- The splitter `parseCsvLine(line)`. -/
def parseCsvLine (line : String) : List String :=
  (parseCsvLineAux false [] line.toList).map String.mk

/-- The assignment `row[h] = (fields[idx] ?? "").trim()` for every header, in order. -/
def buildRow (headers fields : List String) : Row :=
  headers.enum.foldl
    (fun row p => jsSet row p.2 (jsTrimStr ((fields.get? p.1).getD ""))) []

/-- The pure core of `fetchCSV` (everything after the text has been
fetched): normalize newlines, split into lines, parse the header, build
one row per non-blank data line. -/
def fetchCSVRows (text : String) : List Row :=
  let lines := splitOnChar '\n' (normNewlines text.toList)
  match lines with
  | [] => []
  | header :: rest =>
    let headers := (parseCsvLineAux false [] header).map String.mk
    rest.filterMap fun line =>
      if jsTrimL line = [] then none
      else some (buildRow headers ((parseCsvLineAux false [] line).map String.mk))

/-- The header list of a CSV text (what the first line parses to). -/
def csvHeaders (text : String) : List String :=
  match splitOnChar '\n' (normNewlines text.toList) with
  | [] => []
  | header :: _ => (parseCsvLineAux false [] header).map String.mk

/-! ## Crosswalk builder (`src/utils/crosswalk.ts`) -/

/-- A cell of the raw crosswalk rows (`Record<string, any>`): the data
sheet holds strings and numbers; `vnull` models both `null` and
`undefined` stored in a present key (numeric cells are integral FIPS
codes, so numbers are modelled as integers). -/
inductive JsVal where
  | vstr (s : String)
  | vnum (n : Int)
  | vnull
deriving DecidableEq

/-- A raw crosswalk row. -/
abbrev RawRow := List (String × JsVal)

/-- Property read on a raw row. -/
def rawGet (row : RawRow) (k : String) : Option JsVal :=
  (row.find? (fun kv => kv.1 = k)).map (·.2)

/-- The `row[a] ?? row[b] ?? …` alias chain: first value that is neither
absent (`undefined`) nor `null`. -/
def aliasGet (row : RawRow) : List String → Option JsVal
  | [] => none
  | k :: rest =>
    match rawGet row k with
    | some .vnull => aliasGet row rest
    | none => aliasGet row rest
    | some v => some v

/-- JS `String(v)` on a cell value. -/
def jsString : JsVal → String
  | .vstr s => s
  | .vnum n => intToStr n
  | .vnull => "null"

/-- JS falsiness of a cell value (`!title`). -/
def isFalsy : JsVal → Bool
  | .vstr s => s = ""
  | .vnum n => n = 0
  | .vnull => true

/-- JS `String(v ?? "")`: the stringification `toGeoId` applies to each FIPS
cell. -/
def geoStr (v : JsVal) : String := if v = .vnull then "" else jsString v

/-- The builder `toGeoId(state, county)`: `String(state ?? "").padStart(2, "0") +
String(county ?? "").padStart(3, "0")`. -/
def toGeoId (state county : JsVal) : String :=
  padTwo (geoStr state) ++ padThree (geoStr county)

/-- The aliased column names for the MSA title. -/
def titleAliases : List String :=
  ["CBSA Title", "Metropolitan/Micropolitan Statistical Area", "Title", "Unnamed: 3"]

/-- The aliased column names for the state FIPS cell. -/
def stateFipsAliases : List String := ["FIPS State Code", "State FIPS", "Unnamed: 9"]

/-- The aliased column names for the county FIPS cell. -/
def countyFipsAliases : List String := ["FIPS County Code", "County FIPS", "Unnamed: 10"]

/-- A digit string of length at most `n`. -/
def digitBounded (n : ℕ) (s : String) : Bool :=
  decide (s.length ≤ n) && s.toList.all Char.isDigit

/-- Well-formedness of one crosswalk row's FIPS cells: whenever both
aliased FIPS cells are present and non-null, the state cell stringifies
to at most 2 digits and the county cell to at most 3 (true of every row
of the census crosswalk sheet). -/
def fipsOk (row : RawRow) : Bool :=
  match aliasGet row stateFipsAliases, aliasGet row countyFipsAliases with
  | some sv, some cv => digitBounded 2 (geoStr sv) && digitBounded 3 (geoStr cv)
  | _, _ => true

/-- Process one crosswalk row: extract aliased title and FIPS cells, skip
if the title is falsy or either FIPS cell is nullish, otherwise push the
GEOID under the trimmed title. -/
def crosswalkStep (m : List (String × List String)) (row : RawRow) :
    List (String × List String) :=
  let title := aliasGet row titleAliases
  let stateFips := aliasGet row stateFipsAliases
  let countyFips := aliasGet row countyFipsAliases
  match title, stateFips, countyFips with
  | some t, some sf, some cf =>
    if isFalsy t then m
    else pushEntry m (jsTrimStr (jsString t)) (toGeoId sf cf)
  | _, _, _ => m

/-- The builder `buildMsaToCountiesFromList(rows)`: accumulate GEOIDs per MSA title,
then deduplicate and sort each title's list. -/
def buildMsaToCountiesFromList (rows : List RawRow) : List (String × List String) :=
  ((rows.foldl crosswalkStep []).map fun p => (p.1, sortStr (setDedup p.2)))

/-! ## Shared normalizers (`useMsaValues.ts` and `SdgChoropleth.tsx`) -/

/-- The normalizer `canonAreaName(s) = canon(unquote(s))`. -/
def canonAreaName (s : String) : String := canon (unquote s)

/-- The digit group of `^(\d{1,2})$`. -/
def numOnlyDigits (l : List Char) : Option (List Char) :=
  if l ≠ [] ∧ l.length ≤ 2 ∧ l.all Char.isDigit then some l else none

/-- What follows the optional `[-\s]?` separator after `sdg`: the
separator is consumed whenever present (a separator is never a digit, so
this is exactly the regex's backtracking behavior). -/
def sdgSep (rest : List Char) : List Char :=
  match rest with
  | c :: rest2 => if c = '-' ∨ wsChar c then rest2 else rest
  | [] => []

/-- The digit group of `^sdg[-\s]?(\d{1,2})$`. -/
def sdgDigits (l : List Char) : Option (List Char) :=
  match l with
  | 's' :: 'd' :: 'g' :: rest =>
    if sdgSep rest ≠ [] ∧ (sdgSep rest).length ≤ 2 ∧ (sdgSep rest).all Char.isDigit then
      some (sdgSep rest)
    else none
  | _ => none

/-- The normalizer `normalizeSdg(raw)` (defined identically in both files).  The source's
last two branches (`/^sdg-\d{2}$/` matched, and the fallback) both return
`s.toUpperCase()`, so they are written as the single fallback here. -/
def normalizeSdg (raw : String) : String :=
  let s := canon (unquote raw)
  if s = "" ∨ s = "overall" ∨ s = "all" ∨ s = "total" then "overall"
  else
    match numOnlyDigits s.toList with
    | some ds => "SDG-" ++ padTwo (String.mk ds)
    | none =>
      match sdgDigits s.toList with
      | some ds => "SDG-" ++ padTwo (String.mk ds)
      | none => strUpper s

/-! ## Year/category value aggregator (`src/hooks/useMsaValues.ts`) -/

namespace Msa

/-- The helper `pick(row, keys)` as written in `useMsaValues.ts`: return `row[k]`
whenever the key is present (even if the value is empty), else the value
under the first key that case-insensitively equals `k`, else try the next
candidate; empty string when no candidate matches. -/
def pick (row : Row) : List String → String
  | [] => ""
  | k :: rest =>
    match rowGet row k with
    | some v => v
    | none =>
      match row.find? (fun kv => strLower kv.1 = strLower k) with
      | some kv => kv.2
      | none => pick row rest

/-- The aliased category of a row, normalized. -/
def recSdg (r : Row) : String := normalizeSdg (pick r ["sdg", "indicator"])

/-- The parsed aliased value cells of a list of rows, keeping only finite
ones (`.map(Number).filter(Number.isFinite)`). -/
def finiteVals (recs : List Row) : List ℚ :=
  recs.filterMap fun r => jsNumber (pick r ["sdg_lq", "value", "score", "lq"])

/-- Mean of the finite values of the rows, `none` when there are none
(both value computations in the aggregator follow this formula). -/
def rowsVal (recs : List Row) : Option ℚ :=
  let nums := finiteVals recs
  if nums = [] then none else some (nums.sum / (nums.length : ℚ))

/-- The rows of a group whose own normalized category is `"overall"`. -/
def overallRecs (recs : List Row) : List Row :=
  recs.filter (fun r => recSdg r = "overall")

/-- The row subset the aggregator selects for the requested category
(`recsForWanted`). -/
def wantedRecs (wanted : String) (recs : List Row) : List Row :=
  if wanted = "overall" then overallRecs recs
  else recs.filter (fun r => recSdg r = wanted)

/-- Whether the group takes the overall-fallback path (requested category
is `"overall"` and no row of the group is overall-tagged). -/
def isFallback (wanted : String) (recs : List Row) : Bool :=
  wanted = "overall" ∧ overallRecs recs = []

/-- The value the aggregator computes for one group. -/
def groupVal (wanted : String) (recs : List Row) : Option ℚ :=
  if isFallback wanted recs then rowsVal recs else rowsVal (wantedRecs wanted recs)

/-- The row whose CBSA/GEOID cell is consulted for the group: `recs[0]`
on the fallback path, `recsForWanted[0] ?? recs[0]` otherwise. -/
def designatedRow (wanted : String) (recs : List Row) : Row :=
  if isFallback wanted recs then recs.headD []
  else (wantedRecs wanted recs).headD (recs.headD [])

/-- The code `(pick(…, ["CBSA", "GEOID"]) || "").trim()` on the designated row. -/
def groupCode (wanted : String) (recs : List Row) : String :=
  jsTrimStr (pick (designatedRow wanted recs) ["CBSA", "GEOID"])

/-- Group all rows by canonicalized area name (`groupByArea`), keys in
first-appearance order, each group's rows in input order; rows whose
canonical area is empty are dropped. -/
def groupByArea (rows : List Row) : List (String × List Row) :=
  rows.foldl
    (fun m r =>
      let area := canonAreaName (pick r ["area_name", "area", "msa", "name"])
      if area = "" then m else pushEntry m area r)
    []

/-- One iteration of the aggregator's per-group loop: store the group
value under the canonical name key, and under the trimmed code key when
that code is non-empty. -/
def aggStep (wanted : String) (acc : List (String × Option ℚ) × List (String × Option ℚ))
    (g : String × List Row) : List (String × Option ℚ) × List (String × Option ℚ) :=
  let v := groupVal wanted g.2
  let code := groupCode wanted g.2
  (if code ≠ "" then jsSet acc.1 code v else acc.1, jsSet acc.2 g.1 v)

/-- The `useMemo` body of `useMsaValues`: the `(valueByCbsa, valueByName)`
pair of maps (the empty input short-circuit mirrors `!rows.length`). -/
def computeMaps (rows : List Row) (sdgInput : String) :
    List (String × Option ℚ) × List (String × Option ℚ) :=
  let wanted := normalizeSdg sdgInput
  if rows = [] then ([], [])
  else (groupByArea rows).foldl (aggStep wanted) ([], [])

/-- The map `valueByCbsa`. -/
def valueByCbsa (rows : List Row) (sdgInput : String) : List (String × Option ℚ) :=
  (computeMaps rows sdgInput).1

/-- The map `valueByName`. -/
def valueByName (rows : List Row) (sdgInput : String) : List (String × Option ℚ) :=
  (computeMaps rows sdgInput).2

/-- The `(code, value)` pairs the aggregator stores into `valueByCbsa`,
one per group whose designated row carries a non-empty trimmed code, in
group order. -/
def cbsaPairs (rows : List Row) (sdgInput : String) : List (String × Option ℚ) :=
  let wanted := normalizeSdg sdgInput
  (groupByArea rows).filterMap fun g =>
    let code := groupCode wanted g.2
    if code = "" then none else some (code, groupVal wanted g.2)

end Msa

/-! ## Point joiner and state normalizer (`src/components/SdgChoropleth.tsx`) -/

namespace Choro

/-- The helper `pick(row, candidates)` as written in `SdgChoropleth.tsx`: per
candidate, coalesce `row[k] ?? row[k.toLowerCase()] ?? row[k.toUpperCase()]`
and return it when non-null and non-blank after trimming. -/
def pick (row : Row) : List String → String
  | [] => ""
  | k :: rest =>
    match (rowGet row k).orElse (fun _ => (rowGet row (strLower k)).orElse
        (fun _ => rowGet row (strUpper k))) with
    | some v => if jsTrimStr v ≠ "" then v else pick row rest
    | none => pick row rest

/-- The `STATE_ABBR` table: full US state/territory names (canonical,
lowercase) to 2-letter abbreviations, 50 states plus two DC spellings. -/
def STATE_ABBR : List (String × String) :=
  [("alabama", "al"), ("alaska", "ak"), ("arizona", "az"), ("arkansas", "ar"),
   ("california", "ca"), ("colorado", "co"), ("connecticut", "ct"), ("delaware", "de"),
   ("florida", "fl"), ("georgia", "ga"), ("hawaii", "hi"), ("idaho", "id"),
   ("illinois", "il"), ("indiana", "in"), ("iowa", "ia"), ("kansas", "ks"),
   ("kentucky", "ky"), ("louisiana", "la"), ("maine", "me"), ("maryland", "md"),
   ("massachusetts", "ma"), ("michigan", "mi"), ("minnesota", "mn"), ("mississippi", "ms"),
   ("missouri", "mo"), ("montana", "mt"), ("nebraska", "ne"), ("nevada", "nv"),
   ("new hampshire", "nh"), ("new jersey", "nj"), ("new mexico", "nm"), ("new york", "ny"),
   ("north carolina", "nc"), ("north dakota", "nd"), ("ohio", "oh"), ("oklahoma", "ok"),
   ("oregon", "or"), ("pennsylvania", "pa"), ("rhode island", "ri"), ("south carolina", "sc"),
   ("south dakota", "sd"), ("tennessee", "tn"), ("texas", "tx"), ("utah", "ut"),
   ("vermont", "vt"), ("virginia", "va"), ("washington", "wa"), ("west virginia", "wv"),
   ("wisconsin", "wi"), ("wyoming", "wy"),
   ("district of columbia", "dc"), ("washington dc", "dc")]

/-- A lowercase ASCII letter (the class `[a-z]`). -/
def isLowAZ (c : Char) : Bool := 'a' ≤ c ∧ c ≤ 'z'

/-- The table lookup part of `normStateToken`: try `t`, then `t` with
whitespace runs collapsed (a no-op on canonical strings, kept faithfully),
returning `""` when neither is a known full name. -/
def stateLookup (t : String) : String :=
  match lookupA STATE_ABBR t with
  | some a => a
  | none =>
    match lookupA STATE_ABBR (String.mk (collapseWs t.toList)) with
    | some a => a
    | none => ""

/-- The normalizer `normStateToken(raw)`: canonicalize and unquote; if the result starts
with two lowercase ASCII letters (`/^[a-z]{2}/`), return those two
letters; else look the string up in the full-name table. -/
def normStateToken (raw : String) : String :=
  let t := canon (unquote raw)
  if t = "" then ""
  else
    match t.toList with
    | c1 :: c2 :: _ =>
      if isLowAZ c1 ∧ isLowAZ c2 then String.mk [c1, c2] else stateLookup t
    | _ => stateLookup t

/-- A normalized `{city, state}` pair. -/
structure CityState where
  city : String
  state : String
deriving DecidableEq

/-- The normalizer `normalizeAreaName(raw)`: canonicalize+unquote, split on commas, city
from the part before the first comma, state from the part after it. -/
def normalizeAreaName (raw : String) : CityState :=
  let norm := canon (unquote raw)
  if norm = "" then ⟨"", ""⟩
  else
    let parts := (splitOnChar ',' norm.toList).map String.mk
    ⟨canon (parts.headD ""), normStateToken ((parts.get? 1).getD "")⟩

/-- The suffix alternatives of
`/\s*(metropolitan statistical area|metropolitan area|metro area|metro)\s*$/i`,
in the regex's order. -/
def metroSuffixes : List String :=
  ["metropolitan statistical area", "metropolitan area", "metro area", "metro"]

/-- Case-insensitive "ends with" on character lists. -/
def endsWithCI (l : List Char) (pat : String) : Bool :=
  let ll := l.map Char.toLower
  let pl := pat.toList
  decide (pl.length ≤ ll.length) ∧ ll.drop (ll.length - pl.length) = pl

/-- Strip the trailing metro suffix (with surrounding whitespace) from a
metro display name; the input is unchanged when no alternative matches. -/
def stripMetroSuffix (s : String) : String :=
  let t := dropTrailWhile wsChar s.toList
  match metroSuffixes.find? (fun a => endsWithCI t a) with
  | some a =>
    String.mk (dropTrailWhile wsChar (t.take (t.length - a.toList.length)))
  | none => s

/-- The normalizer `normalizeMetroName(metro, stateId)`: strip the metro suffix, apply
the comma-split logic, and fall back to the `stateId` hint when the name
itself yields no state (`normStateToken(stateFromName || stateId || "")`). -/
def normalizeMetroName (metro stateId : String) : CityState :=
  let norm := canon (unquote (stripMetroSuffix metro))
  let parts := (splitOnChar ',' norm.toList).map String.mk
  let city := canon (parts.headD "")
  let stateFromName := normStateToken ((parts.get? 1).getD "")
  ⟨city, normStateToken (if stateFromName ≠ "" then stateFromName else stateId)⟩

/-- A normalized coordinate-table entry (`MetroNorm`). -/
structure MetroNorm where
  city : String
  state : String
  lat : ℚ
  lng : ℚ
  raw : Row
deriving DecidableEq

/-- A normalized indicator row (`MsaNorm`); `sdg_lq = none` models the
`NaN` stored when the value cell does not parse to a finite number. -/
structure MsaNorm where
  area_name : String
  sdg : String
  sdg_lq : Option ℚ
  city : String
  state : String
deriving DecidableEq

/-- A joined output point (`MsaPoint`). -/
structure MsaPoint where
  area_name : String
  sdg : String
  sdg_lq : ℚ
  lat : ℚ
  lng : ℚ
deriving DecidableEq

/-- Index build over the coordinate table (`metroRows.forEach` of
`useMsaPoints`): normalize each row, skip it when the city is empty or a
coordinate does not parse, and populate the exact `"city|state"` map and
the city-only candidate index. -/
def buildMetroIndexes (metroRows : List Row) :
    List (String × MetroNorm) × List (String × List MetroNorm) :=
  metroRows.foldl
    (fun acc row =>
      let metroName := pick row ["metro", "name", "metro_name", "cbsa_title", "cbsa"]
      let stId := pick row ["state_id", "state", "st", "state_code"]
      let latStr := pick row ["lat", "latitude", "y"]
      let lngStr := pick row ["lng", "lon", "long", "longitude", "x"]
      let cs := normalizeMetroName metroName stId
      match jsNumber latStr, jsNumber lngStr with
      | some lat, some lng =>
        if cs.city = "" then acc
        else
          let n : MetroNorm := ⟨cs.city, cs.state, lat, lng, row⟩
          (jsSet acc.1 (cs.city ++ "|" ++ cs.state) n, pushEntry acc.2 cs.city n)
      | _, _ => acc)
    ([], [])

/-- Normalization of the indicator table (`msaRows.forEach`): rows with
an empty normalized city are dropped. -/
def buildMsaNorm (msaRows : List Row) : List MsaNorm :=
  msaRows.filterMap fun row =>
    let areaName := pick row ["area_name", "msa", "name", "area", "area_name_2010", "area2010"]
    let sdgRaw := pick row ["sdg", "indicator", "sdg_code"]
    let lqRaw := pick row ["sdg_lq", "value", "score", "lq", "sdg_lq_2010"]
    let cs := normalizeAreaName areaName
    if cs.city = "" then none
    else some ⟨unquote areaName, normalizeSdg sdgRaw, jsNumber lqRaw, cs.city, cs.state⟩

/-- The category filter: everything for `"overall"`, else only rows whose
normalized category equals the requested one. -/
def filteredMsa (msaRows : List Row) (selectedSDG : String) : List MsaNorm :=
  let wanted := normalizeSdg selectedSDG
  if wanted = "overall" then buildMsaNorm msaRows
  else (buildMsaNorm msaRows).filter (fun r => r.sdg = wanted)

/-- The match step of the join loop: exact `"city|state"` lookup, then the
city-only fallback for rows with an empty state (single candidate, or
several candidates all sharing one state). -/
def matchMetro (byKey : List (String × MetroNorm))
    (cityIdx : List (String × List MetroNorm)) (r : MsaNorm) : Option MetroNorm :=
  match lookupA byKey (r.city ++ "|" ++ r.state) with
  | some m => some m
  | none =>
    if r.state = "" then
      let cands := (lookupA cityIdx r.city).getD []
      match cands with
      | [c] => some c
      | c :: _ :: _ =>
        if (setDedup (cands.map (·.state))).length = 1 then some c else none
      | [] => none
    else none

/-- One filtered indicator row's contribution to the output: `none` when
unmatched or when the value is not finite. -/
def joinOne (byKey : List (String × MetroNorm))
    (cityIdx : List (String × List MetroNorm)) (r : MsaNorm) : Option MsaPoint :=
  match matchMetro byKey cityIdx r with
  | none => none
  | some m =>
    match r.sdg_lq with
    | none => none
    | some v => some ⟨r.area_name, r.sdg, v, m.lat, m.lng⟩

/-- The pure joined-points pipeline of `useMsaPoints` (steps 1–4 of the
`useMemo` body): output preserves filtered-row order. -/
def useMsaPoints (msaRows metroRows : List Row) (selectedSDG : String) : List MsaPoint :=
  let idx := buildMetroIndexes metroRows
  (filteredMsa msaRows selectedSDG).filterMap (joinOne idx.1 idx.2)

end Choro

/-! ## Specification-side functions

These definitions follow the wording of spec sentences (not the source),
for comparison against the source-derived definitions above. -/

/-- Keep an optional value only when it is non-empty after trimming. -/
def blankToNone (o : Option String) : Option String :=
  o.bind fun v => if jsTrimStr v ≠ "" then some v else none

/-- The `pick` behavior the spec describes: "return the first non-null,
non-empty (after trim) value found, trying each candidate key, its
lowercase, and its uppercase form in turn; return empty string if none
match". -/
def pickSpec (row : Row) : List String → String
  | [] => ""
  | k :: rest =>
    match [k, strLower k, strUpper k].findSome?
        (fun kk => blankToNone (rowGet row kk)) with
    | some v => v
    | none => pickSpec row rest

/-- The per-candidate value the `SdgChoropleth` `pick` actually coalesces:
`row[k] ?? row[k.toLowerCase()] ?? row[k.toUpperCase()]`. -/
def coalesce3 (row : Row) (k : String) : Option String :=
  (rowGet row k).orElse fun _ =>
    (rowGet row (strLower k)).orElse fun _ => rowGet row (strUpper k)

/-- The per-candidate value the `useMsaValues` `pick` actually returns:
the exact-key value when the key is present (even when blank), else the
value under the first key that case-insensitively equals `k` (even when
blank). -/
def msaKeyVal (row : Row) (k : String) : Option String :=
  (rowGet row k).orElse fun _ =>
    (row.find? (fun kv => strLower kv.1 = strLower k)).map (·.2)

/-- Whether a character list neither starts nor ends with a quote
character. -/
def noQuoteEnds (l : List Char) : Bool :=
  (match l.head? with
   | some c => !isQuoteB c
   | none => true) &&
  (match l.getLast? with
   | some c => !isQuoteB c
   | none => true)

/-! ## Helper lemmas -/

theorem mem_jsSet_key {α : Type} (m : List (String × α)) (k : String) (v : α)
    (p : String × α) (hp : p ∈ jsSet m k v) : p.1 = k ∨ p ∈ m := by
  induction m with
  | nil =>
    simp only [jsSet, List.mem_singleton] at hp
    subst hp
    exact Or.inl rfl
  | cons q rest ih =>
    obtain ⟨k', v'⟩ := q
    simp only [jsSet] at hp
    by_cases h : k' = k
    · rw [if_pos h] at hp
      rcases List.mem_cons.mp hp with h1 | h1
      · subst h1
        exact Or.inl rfl
      · exact Or.inr (List.mem_cons_of_mem _ h1)
    · rw [if_neg h] at hp
      rcases List.mem_cons.mp hp with h1 | h1
      · subst h1
        exact Or.inr (List.mem_cons_self _ _)
      · rcases ih h1 with h2 | h2
        · exact Or.inl h2
        · exact Or.inr (List.mem_cons_of_mem _ h2)

theorem mem_key_foldl_jsSet (l : List (ℕ × String)) (fs : List String) (init : Row)
    (p : String × String)
    (hp : p ∈ l.foldl (fun row q => jsSet row q.2 (jsTrimStr ((fs.get? q.1).getD ""))) init) :
    p.1 ∈ l.map Prod.snd ∨ p ∈ init := by
  induction l generalizing init with
  | nil => exact Or.inr hp
  | cons q rest ih =>
    rw [List.foldl_cons] at hp
    rcases ih _ hp with h | h
    · exact Or.inl (List.mem_cons_of_mem _ h)
    · rcases mem_jsSet_key _ _ _ _ h with h2 | h2
      · exact Or.inl (by rw [h2]; exact List.mem_cons_self _ _)
      · exact Or.inr h2

theorem mem_buildRow_key (headers fields : List String) (p : String × String)
    (hp : p ∈ buildRow headers fields) : p.1 ∈ headers := by
  rcases mem_key_foldl_jsSet headers.enum fields [] p hp with h | h
  · rwa [List.enum_map_snd] at h
  · simp at h

/-! ## C8: quoted-field line splitting -/

/-- C8: the quoted-field line splitter maps `"a,b",c` to the two fields
`a,b` and `c`, and `"a""b",c` to the two fields `a"b` and `c`: a comma
inside quotes does not split, the surrounding quotes are not part of the
field, and a doubled quote inside quotes emits one literal quote. -/
theorem c8_quoted_field_splitting :
    parseCsvLine "\"a,b\",c" = ["a,b", "c"] ∧
    parseCsvLine "\"a\"\"b\",c" = ["a\"b", "c"] := by decide

/-! ## C10: extra fields beyond the header are discarded -/

/-- C10: every key of every row `fetchCSV` builds is a name appearing in
the header line; a data line with more fields than headers contributes
nothing beyond the header names (extra fields are silently discarded). -/
theorem c10_keys_subset_headers (text : String) (row : Row) (p : String × String)
    (hrow : row ∈ fetchCSVRows text) (hp : p ∈ row) : p.1 ∈ csvHeaders text := by
  unfold fetchCSVRows at hrow
  unfold csvHeaders
  cases hl : splitOnChar '\n' (normNewlines text.toList) with
  | nil =>
    rw [hl] at hrow
    simp at hrow
  | cons header rest =>
    rw [hl] at hrow
    simp only [List.mem_filterMap] at hrow
    obtain ⟨line, _, hline⟩ := hrow
    by_cases hb : jsTrimL line = []
    · rw [if_pos hb] at hline
      exact absurd hline (by simp)
    · rw [if_neg hb] at hline
      obtain rfl := Option.some_injective _ hline
      exact mem_buildRow_key _ _ _ hp

/-- Witness for C10 at a concrete CSV text whose data line has one extra
field. -/
theorem c10_witness :
    [("a", "1"), ("b", "2")] ∈ fetchCSVRows "a,b\n1,2,3" ∧
    ("a" : String) ∈ csvHeaders "a,b\n1,2,3" :=
  ⟨by decide, c10_keys_subset_headers "a,b\n1,2,3" [("a", "1"), ("b", "2")] ("a", "1")
    (by decide) (by decide)⟩

/-! ## C4: the `pick` aliasing helper -/

/-- C4 counterexample: neither `pick` implements the spec's "first
non-null value that is non-empty after trimming, trying each candidate
key, its lowercase form, and its uppercase form in turn".  The
`SdgChoropleth` version never consults the case variants once the exact
key is present but blank; the `useMsaValues` version returns a present
key's value even when blank. -/
theorem c4_counterexample :
    pickSpec [("A", ""), ("a", "x")] ["A"] = "x" ∧
    Choro.pick [("A", ""), ("a", "x")] ["A"] = "" ∧
    pickSpec [("a", ""), ("b", "x")] ["a", "b"] = "x" ∧
    Msa.pick [("a", ""), ("b", "x")] ["a", "b"] = "" := by decide

/-- C4 (amended): per candidate key `k`, the `SdgChoropleth` `pick`
coalesces `row[k] ?? row[k.toLowerCase()] ?? row[k.toUpperCase()]` and
returns that value only when it is non-null and non-blank after trimming
(so a present-but-blank exact key shadows its case variants); the
`useMsaValues` `pick` returns the exact-key value whenever the key is
present — even when blank — and otherwise the value under the first
case-insensitively equal key; both return the empty string when no
candidate yields a value. -/
theorem c4_pick_characterization :
    (∀ (row : Row) (cands : List String),
      Choro.pick row cands =
        (cands.findSome? fun k => blankToNone (coalesce3 row k)).getD "") ∧
    (∀ (row : Row) (cands : List String),
      Msa.pick row cands =
        (cands.findSome? fun k => msaKeyVal row k).getD "") := by
  constructor
  · intro row cands
    induction cands with
    | nil => rfl
    | cons k rest ih =>
      rw [Choro.pick, List.findSome?]
      cases h : (rowGet row k).orElse fun _ =>
          (rowGet row (strLower k)).orElse fun _ => rowGet row (strUpper k) with
      | none =>
        have hc : coalesce3 row k = none := h
        simp only [blankToNone, hc, Option.none_bind]
        exact ih
      | some v =>
        have hc : coalesce3 row k = some v := h
        simp only [blankToNone, hc, Option.some_bind]
        by_cases hv : jsTrimStr v ≠ ""
        · simp only [if_pos hv]
          rfl
        · simp only [if_neg hv]
          exact ih
  · intro row cands
    induction cands with
    | nil => rfl
    | cons k rest ih =>
      rw [Msa.pick, List.findSome?]
      cases h : rowGet row k with
      | some v =>
        have hc : msaKeyVal row k = some v := by rw [msaKeyVal, h]; rfl
        simp only [hc]
        rfl
      | none =>
        have hc : msaKeyVal row k =
            (row.find? (fun kv => strLower kv.1 = strLower k)).map (·.2) := by
          rw [msaKeyVal, h]; rfl
        cases hf : row.find? (fun kv => strLower kv.1 = strLower k) with
        | some kv =>
          rw [hf] at hc
          simp only [hc, Option.map_some]
          rfl
        | none =>
          rw [hf] at hc
          simp only [hc, Option.map_none]
          exact ih

/-! ## C1: `normStateToken` on full state names -/

/-- C1 counterexample: "New Hampshire" canonicalizes to the table key
"new hampshire" (whose abbreviation is "nh"), yet `normStateToken`
returns "ne" — the two-lowercase-letter rule fires before the full-name
table is consulted. -/
theorem c1_counterexample :
    canon (unquote "New Hampshire") = "new hampshire" ∧
    lookupA Choro.STATE_ABBR "new hampshire" = some "nh" ∧
    Choro.normStateToken "New Hampshire" = "ne" ∧
    Choro.normStateToken "New Hampshire" ≠ "nh" := by decide

/-- C1 (amended): whenever the canonicalized, unquoted input starts with
two lowercase ASCII letters — which every full state name does —
`normStateToken` returns exactly those two letters, so a full name maps
to its table abbreviation only when the two coincide; in particular
`normStateToken "California" = normStateToken "CA" =
normStateToken "ca" = "ca"`. -/
theorem c1_two_letter_rule :
    (∀ (raw : String) (c1 c2 : Char) (rest : List Char),
      (canon (unquote raw)).toList = c1 :: c2 :: rest →
      Choro.isLowAZ c1 = true → Choro.isLowAZ c2 = true →
      Choro.normStateToken raw = String.mk [c1, c2]) ∧
    Choro.normStateToken "California" = "ca" ∧
    Choro.normStateToken "CA" = "ca" ∧
    Choro.normStateToken "ca" = "ca" := by
  refine ⟨?_, by decide, by decide, by decide⟩
  intro raw c1 c2 rest h h1 h2
  have hne : canon (unquote raw) ≠ "" := by
    intro he
    rw [he] at h
    exact absurd h (by simp)
  rw [Choro.normStateToken]
  simp only [if_neg hne, h, h1, h2, and_self, if_true]

/-- Witness for C1 at the input "California". -/
theorem c1_witness : Choro.normStateToken "California" = String.mk ['c', 'a'] :=
  c1_two_letter_rule.1 "California" 'c' 'a' ['l', 'i', 'f', 'o', 'r', 'n', 'i', 'a']
    (by decide) (by decide) (by decide)

/-! ## Sorting and deduplication lemmas -/

theorem strLeL_total (a b : List Char) (h : strLeL a b = false) : strLeL b a = true := by
  induction a generalizing b with
  | nil => simp [strLeL] at h
  | cons x xs ih =>
    cases b with
    | nil => rfl
    | cons y ys =>
      rw [strLeL] at h
      rw [strLeL]
      by_cases h1 : x.toNat < y.toNat
      · rw [if_pos h1] at h
        exact absurd h (by simp)
      · rw [if_neg h1] at h
        by_cases h2 : y.toNat < x.toNat
        · rw [if_pos h2]
        · rw [if_neg h2] at h
          rw [if_neg h2, if_neg h1]
          exact ih ys h

theorem strLeL_trans (a b c : List Char) (hab : strLeL a b = true)
    (hbc : strLeL b c = true) : strLeL a c = true := by
  induction a generalizing b c with
  | nil => rfl
  | cons x xs ih =>
    cases b with
    | nil => simp [strLeL] at hab
    | cons y ys =>
      cases c with
      | nil => simp [strLeL] at hbc
      | cons z zs =>
        rw [strLeL] at hab hbc ⊢
        by_cases hxy : x.toNat < y.toNat
        · by_cases hyz : y.toNat < z.toNat
          · rw [if_pos (by omega : x.toNat < z.toNat)]
          · rw [if_neg hyz] at hbc
            by_cases hzy : z.toNat < y.toNat
            · rw [if_pos hzy] at hbc
              exact absurd hbc (by simp)
            · rw [if_pos (by omega : x.toNat < z.toNat)]
        · rw [if_neg hxy] at hab
          by_cases hyx : y.toNat < x.toNat
          · rw [if_pos hyx] at hab
            exact absurd hab (by simp)
          · rw [if_neg hyx] at hab
            by_cases hyz : y.toNat < z.toNat
            · rw [if_pos (by omega : x.toNat < z.toNat)]
            · rw [if_neg hyz] at hbc
              by_cases hzy : z.toNat < y.toNat
              · rw [if_pos hzy] at hbc
                exact absurd hbc (by simp)
              · rw [if_neg hzy] at hbc
                rw [if_neg (by omega : ¬x.toNat < z.toNat),
                  if_neg (by omega : ¬z.toNat < x.toNat)]
                exact ih ys zs hab hbc

theorem strLe_total (a b : String) (h : strLe a b = false) : strLe b a = true :=
  strLeL_total _ _ h

theorem strLe_trans (a b c : String) (hab : strLe a b = true) (hbc : strLe b c = true) :
    strLe a c = true :=
  strLeL_trans _ _ _ hab hbc

theorem mem_insertSorted (x y : String) (l : List String) :
    y ∈ insertSorted x l ↔ y = x ∨ y ∈ l := by
  induction l with
  | nil => simp [insertSorted]
  | cons z r ih =>
    rw [insertSorted]
    by_cases h : strLe x z = true
    · simp [if_pos h]
    · simp only [if_neg h, List.mem_cons, ih]
      tauto

theorem pairwise_insertSorted (x : String) (l : List String)
    (hl : l.Pairwise (fun a b => strLe a b = true)) :
    (insertSorted x l).Pairwise (fun a b => strLe a b = true) := by
  induction l with
  | nil => simp [insertSorted]
  | cons y r ih =>
    rw [insertSorted]
    rcases List.pairwise_cons.mp hl with ⟨hy, hr⟩
    by_cases h : strLe x y = true
    · rw [if_pos h]
      refine List.pairwise_cons.mpr ⟨?_, hl⟩
      intro b hb
      rcases List.mem_cons.mp hb with rfl | hb
      · exact h
      · exact strLe_trans _ _ _ h (hy b hb)
    · rw [if_neg h]
      refine List.pairwise_cons.mpr ⟨?_, ih hr⟩
      intro b hb
      rcases (mem_insertSorted x b r).mp hb with rfl | hb
      · exact strLe_total _ _ (by simpa using h)
      · exact hy b hb

theorem pairwise_sortStr (l : List String) :
    (sortStr l).Pairwise (fun a b => strLe a b = true) := by
  induction l with
  | nil => exact List.Pairwise.nil
  | cons x r ih => exact pairwise_insertSorted x (sortStr r) ih

theorem perm_insertSorted (x : String) (l : List String) :
    List.Perm (insertSorted x l) (x :: l) := by
  induction l with
  | nil => rfl
  | cons y r ih =>
    rw [insertSorted]
    by_cases h : strLe x y = true
    · rw [if_pos h]
    · rw [if_neg h]
      exact List.Perm.trans (List.Perm.cons y ih) (List.Perm.swap x y r)

theorem perm_sortStr (l : List String) : List.Perm (sortStr l) l := by
  induction l with
  | nil => rfl
  | cons x r ih =>
    exact List.Perm.trans (perm_insertSorted x (sortStr r)) (List.Perm.cons x ih)

theorem mem_setDedup_go {α : Type} [DecidableEq α] (seen l : List α) (x : α)
    (hx : x ∈ setDedupGo seen l) : x ∈ l := by
  induction l generalizing seen with
  | nil => simp [setDedupGo] at hx
  | cons y r ih =>
    rw [setDedupGo] at hx
    by_cases h : y ∈ seen
    · rw [if_pos h] at hx
      exact List.mem_cons_of_mem _ (ih _ hx)
    · rw [if_neg h] at hx
      rcases List.mem_cons.mp hx with rfl | hx
      · exact List.mem_cons_self _ _
      · exact List.mem_cons_of_mem _ (ih _ hx)

theorem mem_setDedup {α : Type} [DecidableEq α] (l : List α) (x : α)
    (hx : x ∈ setDedup l) : x ∈ l :=
  mem_setDedup_go [] l x hx

theorem not_mem_seen_setDedup_go {α : Type} [DecidableEq α] (seen l : List α) (x : α)
    (hx : x ∈ setDedupGo seen l) : x ∉ seen := by
  induction l generalizing seen with
  | nil => simp [setDedupGo] at hx
  | cons y r ih =>
    rw [setDedupGo] at hx
    by_cases h : y ∈ seen
    · rw [if_pos h] at hx
      exact ih _ hx
    · rw [if_neg h] at hx
      rcases List.mem_cons.mp hx with rfl | hx
      · exact h
      · intro hm
        exact ih _ hx (List.mem_cons_of_mem _ hm)

theorem nodup_setDedup_go {α : Type} [DecidableEq α] (seen l : List α) :
    (setDedupGo seen l).Nodup := by
  induction l generalizing seen with
  | nil => exact List.nodup_nil
  | cons y r ih =>
    rw [setDedupGo]
    by_cases h : y ∈ seen
    · rw [if_pos h]
      exact ih _
    · rw [if_neg h]
      refine List.nodup_cons.mpr ⟨?_, ih _⟩
      intro hy
      exact not_mem_seen_setDedup_go _ _ _ hy (List.mem_cons_self _ _)

theorem nodup_setDedup {α : Type} [DecidableEq α] (l : List α) : (setDedup l).Nodup :=
  nodup_setDedup_go [] l

theorem nodup_sortStr_setDedup (l : List String) : (sortStr (setDedup l)).Nodup :=
  ((perm_sortStr (setDedup l)).symm).nodup (nodup_setDedup l)

theorem mem_sortStr (l : List String) (x : String) (hx : x ∈ sortStr l) : x ∈ l :=
  (perm_sortStr l).mem_iff.mp hx

/-! ## C7 / C2: crosswalk builder -/

theorem padStartL_shape (n : ℕ) (l : List Char) (h1 : l.length ≤ n)
    (h2 : l.all Char.isDigit = true) :
    (padStartL n '0' l).length = n ∧ (padStartL n '0' l).all Char.isDigit = true := by
  constructor
  · simp only [padStartL, List.length_append, List.length_replicate]
    omega
  · simp only [padStartL, List.all_append, h2, Bool.and_true]
    rw [List.all_eq_true]
    intro c hc
    rw [List.eq_of_mem_replicate hc]
    decide

theorem toGeoId_shape (sf cf : JsVal) (hs : digitBounded 2 (geoStr sf) = true)
    (hc : digitBounded 3 (geoStr cf) = true) :
    (toGeoId sf cf).length = 5 ∧ (toGeoId sf cf).toList.all Char.isDigit = true := by
  rw [digitBounded, Bool.and_eq_true, decide_eq_true_eq] at hs hc
  have h2 := padStartL_shape 2 (geoStr sf).toList hs.1 hs.2
  have h3 := padStartL_shape 3 (geoStr cf).toList hc.1 hc.2
  constructor
  · show (padTwo (geoStr sf) ++ padThree (geoStr cf)).length = 5
    rw [String.length_append]
    show (padStartL 2 '0' (geoStr sf).toList).length +
      (padStartL 3 '0' (geoStr cf).toList).length = 5
    rw [h2.1, h3.1]
  · show ((padTwo (geoStr sf) ++ padThree (geoStr cf)).toList.all Char.isDigit) = true
    show ((padStartL 2 '0' (geoStr sf).toList) ++
      (padStartL 3 '0' (geoStr cf).toList)).all Char.isDigit = true
    rw [List.all_append, h2.2, h3.2]
    rfl

theorem allP_pushEntry {α : Type} {P : α → Prop} (m : List (String × List α)) (k : String)
    (x : α) (hm : ∀ p ∈ m, ∀ g ∈ p.2, P g) (hx : P x) :
    ∀ p ∈ pushEntry m k x, ∀ g ∈ p.2, P g := by
  induction m with
  | nil =>
    intro p hp g hg
    simp only [pushEntry, List.mem_singleton] at hp
    subst hp
    simp only [List.mem_singleton] at hg
    subst hg
    exact hx
  | cons q rest ih =>
    obtain ⟨k', xs⟩ := q
    intro p hp g hg
    rw [pushEntry] at hp
    by_cases h : k' = k
    · rw [if_pos h] at hp
      rcases List.mem_cons.mp hp with rfl | hp
      · rcases List.mem_append.mp hg with hg | hg
        · exact hm (k', xs) (List.mem_cons_self _ _) g hg
        · rw [List.mem_singleton.mp hg]
          exact hx
      · exact hm p (List.mem_cons_of_mem _ hp) g hg
    · rw [if_neg h] at hp
      rcases List.mem_cons.mp hp with rfl | hp
      · exact hm (k', xs) (List.mem_cons_self _ _) g hg
      · exact ih (fun p hp => hm p (List.mem_cons_of_mem _ hp)) p hp g hg

theorem crosswalkStep_inv {P : String → Prop} (m : List (String × List String)) (r : RawRow)
    (hm : ∀ p ∈ m, ∀ g ∈ p.2, P g)
    (hr : ∀ sf cf, aliasGet r stateFipsAliases = some sf →
      aliasGet r countyFipsAliases = some cf → P (toGeoId sf cf)) :
    ∀ p ∈ crosswalkStep m r, ∀ g ∈ p.2, P g := by
  rw [crosswalkStep]
  cases ht : aliasGet r titleAliases with
  | none => exact hm
  | some t =>
    cases hs : aliasGet r stateFipsAliases with
    | none => exact hm
    | some sf =>
      cases hc : aliasGet r countyFipsAliases with
      | none => exact hm
      | some cf =>
        by_cases hf : isFalsy t
        · simp only [hf, if_true]
          exact hm
        · simp only [hf, Bool.false_eq_true, if_false]
          exact allP_pushEntry _ _ _ hm (hr sf cf hs hc)

theorem crosswalk_foldl_inv (rows : List RawRow) (init : List (String × List String))
    (hrows : ∀ r ∈ rows, fipsOk r = true)
    (hinit : ∀ p ∈ init, ∀ g ∈ p.2,
      g.length = 5 ∧ g.toList.all Char.isDigit = true) :
    ∀ p ∈ rows.foldl crosswalkStep init, ∀ g ∈ p.2,
      g.length = 5 ∧ g.toList.all Char.isDigit = true := by
  induction rows generalizing init with
  | nil => exact hinit
  | cons r rest ih =>
    rw [List.foldl_cons]
    refine ih _ (fun q hq => hrows q (List.mem_cons_of_mem _ hq)) ?_
    refine crosswalkStep_inv init r hinit ?_
    intro sf cf hs hc
    have hok := hrows r (List.mem_cons_self _ _)
    rw [fipsOk, hs, hc, Bool.and_eq_true] at hok
    exact toGeoId_shape sf cf hok.1 hok.2

/-- C2 counterexample: a row whose state FIPS cell stringifies to three
digits produces the six-character GEOID "123001". -/
theorem c2_counterexample :
    buildMsaToCountiesFromList
        [[("CBSA Title", JsVal.vstr "X"), ("FIPS State Code", JsVal.vnum 123),
          ("FIPS County Code", JsVal.vnum 1)]] = [("X", ["123001"])] ∧
    ("123001" : String).length ≠ 5 := by decide

/-- C2 (amended): provided every input row's present FIPS cells
stringify to at most 2 digits (state) and at most 3 digits (county) — as
every row of the census crosswalk sheet does — every GEOID string in
`buildMsaToCountiesFromList`'s output is exactly 5 characters of digits;
without that precondition `toGeoId` merely concatenates the `padStart`
results and longer or non-digit cells leak through. -/
theorem c2_geoid_shape (rows : List RawRow) (hrows : ∀ r ∈ rows, fipsOk r = true)
    (p : String × List String) (hp : p ∈ buildMsaToCountiesFromList rows)
    (g : String) (hg : g ∈ p.2) :
    g.length = 5 ∧ g.toList.all Char.isDigit = true := by
  rw [buildMsaToCountiesFromList] at hp
  obtain ⟨q, hq, rfl⟩ := List.mem_map.mp hp
  have hg2 : g ∈ q.2 := mem_setDedup _ _ (mem_sortStr _ _ hg)
  exact crosswalk_foldl_inv rows [] hrows (by simp) q hq g hg2

/-- Witness for C2 on the Anchorage rows. -/
theorem c2_witness :
    (∀ r ∈ [[("CBSA Title", JsVal.vstr "Anchorage, AK"), ("FIPS State Code", JsVal.vnum 2),
        ("FIPS County Code", JsVal.vnum 20)]], fipsOk r = true) ∧
    ("02020" : String).length = 5 ∧ "02020".toList.all Char.isDigit = true :=
  ⟨by decide,
    c2_geoid_shape
      [[("CBSA Title", JsVal.vstr "Anchorage, AK"), ("FIPS State Code", JsVal.vnum 2),
        ("FIPS County Code", JsVal.vnum 20)]]
      (by decide) ("Anchorage, AK", ["02020"]) (by decide) "02020" (by decide)⟩

/-- C7: the two Anchorage rows produce exactly
`{"Anchorage, AK": ["02020", "02170"]}`; every title's output list is
deduplicated and sorted ascending lexicographically; a row whose FIPS
cells are the literal zero is not skipped (it yields "00000"); and a row
is skipped only when its title is falsy or a FIPS cell is nullish: any
row with a non-falsy title and two present non-null FIPS cells
contributes its GEOID. -/
theorem c7_crosswalk_builder :
    buildMsaToCountiesFromList
        [[("CBSA Title", JsVal.vstr "Anchorage, AK"), ("FIPS State Code", JsVal.vnum 2),
          ("FIPS County Code", JsVal.vnum 20)],
         [("CBSA Title", JsVal.vstr "Anchorage, AK"), ("FIPS State Code", JsVal.vnum 2),
          ("FIPS County Code", JsVal.vnum 170)]] =
      [("Anchorage, AK", ["02020", "02170"])] ∧
    (∀ (rows : List RawRow) (p : String × List String),
      p ∈ buildMsaToCountiesFromList rows →
      p.2.Pairwise (fun a b => strLe a b = true) ∧ p.2.Nodup) ∧
    buildMsaToCountiesFromList
        [[("CBSA Title", JsVal.vstr "X"), ("FIPS State Code", JsVal.vnum 0),
          ("FIPS County Code", JsVal.vnum 0)]] = [("X", ["00000"])] ∧
    (∀ (m : List (String × List String)) (row : RawRow) (t sf cf : JsVal),
      aliasGet row titleAliases = some t → isFalsy t = false →
      aliasGet row stateFipsAliases = some sf →
      aliasGet row countyFipsAliases = some cf →
      crosswalkStep m row = pushEntry m (jsTrimStr (jsString t)) (toGeoId sf cf)) := by
  refine ⟨by decide, ?_, by decide, ?_⟩
  · intro rows p hp
    rw [buildMsaToCountiesFromList] at hp
    obtain ⟨q, _, rfl⟩ := List.mem_map.mp hp
    exact ⟨pairwise_sortStr _, nodup_sortStr_setDedup _⟩
  · intro m row t sf cf ht hf hs hc
    rw [crosswalkStep, ht, hs, hc]
    simp only [hf, Bool.false_eq_true, if_false]

/-- Witness for C7's universally quantified part at the Anchorage rows. -/
theorem c7_witness :
    (["02020", "02170"] : List String).Pairwise (fun a b => strLe a b = true) ∧
    (["02020", "02170"] : List String).Nodup :=
  (c7_crosswalk_builder.2.1
    [[("CBSA Title", JsVal.vstr "Anchorage, AK"), ("FIPS State Code", JsVal.vnum 2),
      ("FIPS County Code", JsVal.vnum 20)],
     [("CBSA Title", JsVal.vstr "Anchorage, AK"), ("FIPS State Code", JsVal.vnum 2),
      ("FIPS County Code", JsVal.vnum 170)]]
    ("Anchorage, AK", ["02020", "02170"]) (by decide))

/-! ## C5: city-only fallback in the point joiner -/

theorem setDedup_go_eq_nil {α : Type} [DecidableEq α] (seen l : List α)
    (h : ∀ y ∈ l, y ∈ seen) : setDedupGo seen l = [] := by
  induction l generalizing seen with
  | nil => rfl
  | cons y r ih =>
    rw [setDedupGo, if_pos (h y (List.mem_cons_self _ _))]
    exact ih _ (fun z hz => h z (List.mem_cons_of_mem _ hz))

theorem setDedup_all_eq {α : Type} [DecidableEq α] (x : α) (l : List α)
    (h : ∀ y ∈ l, y = x) (hne : l ≠ []) : setDedup l = [x] := by
  cases l with
  | nil => exact absurd rfl hne
  | cons z r =>
    have hz : z = x := h z (List.mem_cons_self _ _)
    subst hz
    show setDedupGo [] (z :: r) = [z]
    rw [setDedupGo, if_neg (by simp)]
    rw [setDedup_go_eq_nil _ _ (fun y hy => by
      rw [h y (List.mem_cons_of_mem _ hy)]
      exact List.mem_singleton.mpr rfl)]

theorem mem_setDedup_go_of_mem {α : Type} [DecidableEq α] (seen l : List α) (x : α)
    (hx : x ∈ l) : x ∈ seen ∨ x ∈ setDedupGo seen l := by
  induction l generalizing seen with
  | nil => simp at hx
  | cons y r ih =>
    rw [setDedupGo]
    by_cases h : y ∈ seen
    · rw [if_pos h]
      rcases List.mem_cons.mp hx with rfl | hx
      · exact Or.inl h
      · exact ih _ hx
    · rw [if_neg h]
      rcases List.mem_cons.mp hx with rfl | hx
      · exact Or.inr (List.mem_cons_self _ _)
      · rcases ih (y :: seen) hx with hm | hm
        · rcases List.mem_cons.mp hm with rfl | hm
          · exact Or.inr (List.mem_cons_self _ _)
          · exact Or.inl hm
        · exact Or.inr (List.mem_cons_of_mem _ hm)

theorem mem_setDedup_of_mem {α : Type} [DecidableEq α] (l : List α) (x : α)
    (hx : x ∈ l) : x ∈ setDedup l := by
  rcases mem_setDedup_go_of_mem [] l x hx with h | h
  · simp at h
  · exact h

theorem setDedup_length_ne_one {α : Type} [DecidableEq α] (l : List α) (a b : α)
    (ha : a ∈ l) (hb : b ∈ l) (hab : a ≠ b) : (setDedup l).length ≠ 1 := by
  intro hlen
  obtain ⟨c, hc⟩ := List.length_eq_one.mp hlen
  have h1 := mem_setDedup_of_mem l a ha
  have h2 := mem_setDedup_of_mem l b hb
  rw [hc, List.mem_singleton] at h1 h2
  exact hab (h1.trans h2.symm)

/-- C5: in the point-joiner city-only fallback, for a filtered indicator
row with empty normalized state and no exact `"city|state"` match: a
single city candidate is joined; several candidates with differing
states make the row a miss (its contribution to the output is `none`, no
exception, no guess); several candidates all sharing one state join to
the first candidate. -/
theorem c5_city_only_fallback (msaRows metroRows : List Row) (sel : String)
    (r : Choro.MsaNorm) (_hr : r ∈ Choro.filteredMsa msaRows sel) (hstate : r.state = "")
    (hmiss : lookupA (Choro.buildMetroIndexes metroRows).1 (r.city ++ "|" ++ r.state)
      = none) :
    (∀ c : Choro.MetroNorm,
      (lookupA (Choro.buildMetroIndexes metroRows).2 r.city).getD [] = [c] →
      Choro.matchMetro (Choro.buildMetroIndexes metroRows).1
        (Choro.buildMetroIndexes metroRows).2 r = some c) ∧
    (∀ (c c2 : Choro.MetroNorm) (rest : List Choro.MetroNorm),
      (lookupA (Choro.buildMetroIndexes metroRows).2 r.city).getD [] = c :: c2 :: rest →
      (∃ d ∈ c :: c2 :: rest, d.state ≠ c.state) →
      Choro.matchMetro (Choro.buildMetroIndexes metroRows).1
          (Choro.buildMetroIndexes metroRows).2 r = none ∧
        Choro.joinOne (Choro.buildMetroIndexes metroRows).1
          (Choro.buildMetroIndexes metroRows).2 r = none) ∧
    (∀ (c c2 : Choro.MetroNorm) (rest : List Choro.MetroNorm),
      (lookupA (Choro.buildMetroIndexes metroRows).2 r.city).getD [] = c :: c2 :: rest →
      (∀ d ∈ c :: c2 :: rest, d.state = c.state) →
      Choro.matchMetro (Choro.buildMetroIndexes metroRows).1
        (Choro.buildMetroIndexes metroRows).2 r = some c) := by
  refine ⟨?_, ?_, ?_⟩
  · intro c hc
    rw [Choro.matchMetro, hmiss, if_pos hstate, hc]
  · intro c c2 rest hc ⟨d, hd, hds⟩
    have hm : Choro.matchMetro (Choro.buildMetroIndexes metroRows).1
        (Choro.buildMetroIndexes metroRows).2 r = none := by
      rw [Choro.matchMetro, hmiss, if_pos hstate, hc]
      have hne : (setDedup ((c :: c2 :: rest).map (·.state))).length ≠ 1 :=
        setDedup_length_ne_one _ d.state c.state
          (List.mem_map_of_mem _ hd) (List.mem_map_of_mem _ (List.mem_cons_self _ _)) hds
      simp only [if_neg hne]
    exact ⟨hm, by rw [Choro.joinOne, hm]⟩
  · intro c c2 rest hc hall
    rw [Choro.matchMetro, hmiss, if_pos hstate, hc]
    have hone : setDedup ((c :: c2 :: rest).map (·.state)) = [c.state] := by
      refine setDedup_all_eq c.state _ ?_ (by simp)
      intro y hy
      obtain ⟨d, hd, rfl⟩ := List.mem_map.mp hy
      exact hall d hd
    show (if (setDedup ((c :: c2 :: rest).map (·.state))).length = 1 then some c
      else none) = some c
    rw [hone]
    rfl

/-- Witness for C5: two Springfield coordinate candidates in different
states, an indicator row with no state — the row is a miss. -/
theorem c5_witness :
    Choro.matchMetro
        (Choro.buildMetroIndexes
          [[("metro", "Springfield, IL"), ("lat", "1"), ("lng", "2")],
           [("metro", "Springfield, MA"), ("lat", "3"), ("lng", "4")]]).1
        (Choro.buildMetroIndexes
          [[("metro", "Springfield, IL"), ("lat", "1"), ("lng", "2")],
           [("metro", "Springfield, MA"), ("lat", "3"), ("lng", "4")]]).2
        ⟨"Springfield", "SDG-01", some 1, "springfield", ""⟩ = none ∧
    Choro.joinOne
        (Choro.buildMetroIndexes
          [[("metro", "Springfield, IL"), ("lat", "1"), ("lng", "2")],
           [("metro", "Springfield, MA"), ("lat", "3"), ("lng", "4")]]).1
        (Choro.buildMetroIndexes
          [[("metro", "Springfield, IL"), ("lat", "1"), ("lng", "2")],
           [("metro", "Springfield, MA"), ("lat", "3"), ("lng", "4")]]).2
        ⟨"Springfield", "SDG-01", some 1, "springfield", ""⟩ = none :=
  (c5_city_only_fallback
      [[("area_name", "Springfield"), ("sdg", "1"), ("sdg_lq", "1")]]
      [[("metro", "Springfield, IL"), ("lat", "1"), ("lng", "2")],
       [("metro", "Springfield, MA"), ("lat", "3"), ("lng", "4")]]
      "1" ⟨"Springfield", "SDG-01", some 1, "springfield", ""⟩
      (by decide) (by decide) (by decide)).2.1
    ⟨"springfield", "il", 1, 2, [("metro", "Springfield, IL"), ("lat", "1"), ("lng", "2")]⟩
    ⟨"springfield", "ma", 3, 4, [("metro", "Springfield, MA"), ("lat", "3"), ("lng", "4")]⟩
    [] (by decide) (by decide)

/-! ## Association-map lemmas for the aggregator -/

theorem lookupA_cons {α : Type} (k' : String) (v' : α) (m : List (String × α))
    (k : String) :
    lookupA ((k', v') :: m) k = if k' = k then some v' else lookupA m k := by
  by_cases h : k' = k
  · simp [lookupA, List.find?, h]
  · simp [lookupA, List.find?, h]

theorem lookupA_jsSet_self {α : Type} (m : List (String × α)) (k : String) (v : α) :
    lookupA (jsSet m k v) k = some v := by
  induction m with
  | nil => simp [jsSet, lookupA]
  | cons q rest ih =>
    obtain ⟨k', v'⟩ := q
    rw [jsSet]
    by_cases h : k' = k
    · rw [if_pos h, lookupA_cons, if_pos rfl]
    · rw [if_neg h, lookupA_cons, if_neg h]
      exact ih

theorem lookupA_jsSet_other {α : Type} (m : List (String × α)) (k k' : String) (v : α)
    (h : k ≠ k') : lookupA (jsSet m k' v) k = lookupA m k := by
  induction m with
  | nil => simp [jsSet, lookupA, List.find?, Ne.symm h]
  | cons q rest ih =>
    obtain ⟨k2, v2⟩ := q
    rw [jsSet]
    by_cases h2 : k2 = k'
    · rw [if_pos h2]
      subst h2
      rw [lookupA_cons, lookupA_cons, if_neg (Ne.symm h), if_neg (Ne.symm h)]
    · rw [if_neg h2, lookupA_cons, lookupA_cons]
      by_cases h3 : k2 = k
      · rw [if_pos h3, if_pos h3]
      · rw [if_neg h3, if_neg h3]
        exact ih

theorem lookupA_foldl_jsSet_not_mem {α : Type} (l : List (String × α))
    (init : List (String × α)) (k : String) (h : k ∉ l.map Prod.fst) :
    lookupA (l.foldl (fun m p => jsSet m p.1 p.2) init) k = lookupA init k := by
  induction l generalizing init with
  | nil => rfl
  | cons p rest ih =>
    rw [List.foldl_cons]
    have hk : k ∉ rest.map Prod.fst := fun hm => h (List.mem_cons_of_mem _ hm)
    rw [ih _ hk]
    exact lookupA_jsSet_other _ _ _ _ (fun he => h (by rw [he]; exact List.mem_cons_self _ _))

theorem lookupA_foldl_jsSet {α : Type} (l : List (String × α)) (init : List (String × α))
    (k : String) (v : α) (hnd : (l.map Prod.fst).Nodup) (hm : (k, v) ∈ l) :
    lookupA (l.foldl (fun m p => jsSet m p.1 p.2) init) k = some v := by
  induction l generalizing init with
  | nil => simp at hm
  | cons p rest ih =>
    rw [List.foldl_cons]
    rw [List.map_cons, List.nodup_cons] at hnd
    rcases List.mem_cons.mp hm with rfl | hm2
    · rw [lookupA_foldl_jsSet_not_mem rest _ _ hnd.1]
      exact lookupA_jsSet_self _ _ _
    · exact ih _ hnd.2 hm2

theorem pushEntry_keys {α : Type} (m : List (String × List α)) (k : String) (x : α) :
    (pushEntry m k x).map Prod.fst =
      if k ∈ m.map Prod.fst then m.map Prod.fst else m.map Prod.fst ++ [k] := by
  induction m with
  | nil => simp [pushEntry]
  | cons q rest ih =>
    obtain ⟨k', xs⟩ := q
    rw [pushEntry]
    by_cases h : k' = k
    · subst h
      rw [if_pos (by simp)]
      simp
    · rw [if_neg h]
      simp only [List.map_cons, ih]
      by_cases h2 : k ∈ rest.map Prod.fst
      · rw [if_pos h2, if_pos (by simp [h2])]
      · have hnk : k ∉ (k' :: rest.map Prod.fst) := by
          simp only [List.mem_cons]
          rintro (rfl | hk)
          · exact h rfl
          · exact h2 hk
        rw [if_neg h2, if_neg hnk, List.cons_append]

theorem nodup_keys_pushEntry {α : Type} (m : List (String × List α)) (k : String) (x : α)
    (h : (m.map Prod.fst).Nodup) : ((pushEntry m k x).map Prod.fst).Nodup := by
  rw [pushEntry_keys]
  by_cases h2 : k ∈ m.map Prod.fst
  · rwa [if_pos h2]
  · rw [if_neg h2]
    rw [List.nodup_append]
    refine ⟨h, List.nodup_singleton _, ?_⟩
    intro a ha hb
    rw [List.mem_singleton] at hb
    subst hb
    exact h2 ha

theorem nodup_keys_groupByArea_foldl (rows : List Row) (init : List (String × List Row))
    (h : (init.map Prod.fst).Nodup) :
    ((rows.foldl
      (fun m r =>
        let area := canonAreaName (Msa.pick r ["area_name", "area", "msa", "name"])
        if area = "" then m else pushEntry m area r)
      init).map Prod.fst).Nodup := by
  induction rows generalizing init with
  | nil => exact h
  | cons r rest ih =>
    rw [List.foldl_cons]
    by_cases ha : canonAreaName (Msa.pick r ["area_name", "area", "msa", "name"]) = ""
    · simp only [ha, if_true]
      exact ih _ h
    · simp only [ha, if_false]
      exact ih _ (nodup_keys_pushEntry _ _ _ h)

theorem nodup_keys_groupByArea (rows : List Row) :
    ((Msa.groupByArea rows).map Prod.fst).Nodup :=
  nodup_keys_groupByArea_foldl rows [] (by simp)

theorem computeMaps_snd_foldl (wanted : String)
    (groups : List (String × List Row))
    (acc : List (String × Option ℚ) × List (String × Option ℚ)) :
    (groups.foldl (Msa.aggStep wanted) acc).2 =
      groups.foldl (fun bn g => jsSet bn g.1 (Msa.groupVal wanted g.2)) acc.2 := by
  induction groups generalizing acc with
  | nil => rfl
  | cons g rest ih =>
    rw [List.foldl_cons, List.foldl_cons]
    exact ih _

theorem computeMaps_fst_foldl (wanted : String)
    (groups : List (String × List Row))
    (acc : List (String × Option ℚ) × List (String × Option ℚ)) :
    (groups.foldl (Msa.aggStep wanted) acc).1 =
      groups.foldl
        (fun cb g =>
          if Msa.groupCode wanted g.2 ≠ "" then
            jsSet cb (Msa.groupCode wanted g.2) (Msa.groupVal wanted g.2)
          else cb)
        acc.1 := by
  induction groups generalizing acc with
  | nil => rfl
  | cons g rest ih =>
    rw [List.foldl_cons, List.foldl_cons]
    exact ih _

theorem foldl_cond_jsSet_filterMap (wanted : String) (groups : List (String × List Row))
    (cb : List (String × Option ℚ)) :
    groups.foldl
        (fun cb g =>
          if Msa.groupCode wanted g.2 ≠ "" then
            jsSet cb (Msa.groupCode wanted g.2) (Msa.groupVal wanted g.2)
          else cb)
        cb =
      (groups.filterMap fun g =>
        if Msa.groupCode wanted g.2 = "" then none
        else some (Msa.groupCode wanted g.2, Msa.groupVal wanted g.2)).foldl
        (fun m p => jsSet m p.1 p.2) cb := by
  induction groups generalizing cb with
  | nil => rfl
  | cons g rest ih =>
    rw [List.foldl_cons, List.filterMap_cons]
    by_cases h : Msa.groupCode wanted g.2 = ""
    · simp only [h, if_pos rfl, if_neg (by simp : ¬("" : String) ≠ "")]
      exact ih _
    · simp only [if_neg h, if_pos h]
      rw [List.foldl_cons]
      exact ih _

/-! ## C6 / C3: the aggregator's stored values -/

theorem valueByName_lookup (rows : List Row) (sdgInput : String) (area : String)
    (recs : List Row) (hmem : (area, recs) ∈ Msa.groupByArea rows) :
    lookupA (Msa.valueByName rows sdgInput) area =
      some (Msa.groupVal (normalizeSdg sdgInput) recs) := by
  have hrows : rows ≠ [] := by
    intro he
    subst he
    simp [Msa.groupByArea] at hmem
  rw [Msa.valueByName, Msa.computeMaps]
  simp only [if_neg hrows]
  rw [computeMaps_snd_foldl]
  have hfold :
      (Msa.groupByArea rows).foldl
          (fun bn g => jsSet bn g.1 (Msa.groupVal (normalizeSdg sdgInput) g.2)) [] =
        ((Msa.groupByArea rows).map
            (fun g => (g.1, Msa.groupVal (normalizeSdg sdgInput) g.2))).foldl
          (fun m p => jsSet m p.1 p.2) [] := by
    rw [List.foldl_map]
  rw [hfold]
  refine lookupA_foldl_jsSet _ _ _ _ ?_ ?_
  · have : ((Msa.groupByArea rows).map
        (fun g => (g.1, Msa.groupVal (normalizeSdg sdgInput) g.2))).map Prod.fst =
      (Msa.groupByArea rows).map Prod.fst := by
      rw [List.map_map]
      rfl
    rw [this]
    exact nodup_keys_groupByArea rows
  · exact List.mem_map_of_mem _ hmem

/-- C6: when the requested category normalizes to `"overall"` and a group
has no overall-tagged row, the stored value for that group is the
arithmetic mean of the finite parsed values across all rows of the group
(`null` when none is finite); the concrete 10/20 example yields 15. -/
theorem c6_overall_fallback (rows : List Row) (sdgInput : String) (area : String)
    (recs : List Row) (hwanted : normalizeSdg sdgInput = "overall")
    (hmem : (area, recs) ∈ Msa.groupByArea rows)
    (hnofb : Msa.overallRecs recs = []) :
    lookupA (Msa.valueByName rows sdgInput) area =
      some (if Msa.finiteVals recs = [] then none
        else some ((Msa.finiteVals recs).sum / ((Msa.finiteVals recs).length : ℚ))) ∧
    lookupA
        (Msa.valueByName
          [[("area_name", "A"), ("sdg", "1"), ("sdg_lq", "10")],
           [("area_name", "A"), ("sdg", "2"), ("sdg_lq", "20")]] "overall") "a" =
      some (some 15) := by
  constructor
  · rw [valueByName_lookup rows sdgInput area recs hmem]
    congr 1
    rw [Msa.groupVal, if_pos ?_, Msa.rowsVal]
    rw [Msa.isFallback, hwanted, hnofb]
    decide
  · rw [valueByName_lookup _ _ "a"
      [[("area_name", "A"), ("sdg", "1"), ("sdg_lq", "10")],
       [("area_name", "A"), ("sdg", "2"), ("sdg_lq", "20")]] (by decide)]
    congr 1
    rw [Msa.groupVal, if_pos (by decide), Msa.rowsVal]
    have hv : Msa.finiteVals
        [[("area_name", "A"), ("sdg", "1"), ("sdg_lq", "10")],
         [("area_name", "A"), ("sdg", "2"), ("sdg_lq", "20")]] = [10, 20] := by decide
    rw [hv]
    norm_num
    intro h
    simp at h

/-- Witness for C6 on the 10/20 group. -/
theorem c6_witness :
    normalizeSdg "overall" = "overall" ∧
    lookupA
        (Msa.valueByName
          [[("area_name", "A"), ("sdg", "1"), ("sdg_lq", "10")],
           [("area_name", "A"), ("sdg", "2"), ("sdg_lq", "20")]] "overall") "a" =
      some (some 15) :=
  ⟨by decide,
    (c6_overall_fallback
        [[("area_name", "A"), ("sdg", "1"), ("sdg_lq", "10")],
         [("area_name", "A"), ("sdg", "2"), ("sdg_lq", "20")]] "overall" "a"
        [[("area_name", "A"), ("sdg", "1"), ("sdg_lq", "10")],
         [("area_name", "A"), ("sdg", "2"), ("sdg_lq", "20")]]
        (by decide) (by decide) (by decide)).2⟩

/-- C3 counterexample: the aggregator consults only the first selected
row for a CBSA/GEOID code.  Here the group's second row carries the
non-empty code "123", yet the code-keyed map stays empty because the
first selected row has no code cell. -/
theorem c3_counterexample :
    Msa.valueByCbsa
        [[("area_name", "A"), ("sdg", "1"), ("sdg_lq", "10")],
         [("area_name", "A"), ("sdg", "1"), ("sdg_lq", "20"), ("GEOID", "123")]] "1" = [] ∧
    Msa.pick [("area_name", "A"), ("sdg", "1"), ("sdg_lq", "20"), ("GEOID", "123")]
      ["CBSA", "GEOID"] = "123" := by decide

/-- C3 (amended): the code key for a group is read from the single
designated row (the first category-matching row, or the group's first
row on the fallback path / when none matches) — codes on other rows are
never consulted.  When that row's trimmed CBSA/GEOID pick is non-empty,
the pair (code, group value) is stored into the code-keyed map, the
stored value being exactly the value stored under the group's name key;
the code-keyed map is precisely the fold of these per-group pairs. -/
theorem c3_code_from_designated_row (rows : List Row) (sdgInput : String) (area : String)
    (recs : List Row) (hmem : (area, recs) ∈ Msa.groupByArea rows) :
    (Msa.groupCode (normalizeSdg sdgInput) recs ≠ "" →
      (Msa.groupCode (normalizeSdg sdgInput) recs,
        Msa.groupVal (normalizeSdg sdgInput) recs) ∈ Msa.cbsaPairs rows sdgInput) ∧
    lookupA (Msa.valueByName rows sdgInput) area =
      some (Msa.groupVal (normalizeSdg sdgInput) recs) ∧
    Msa.valueByCbsa rows sdgInput =
      (Msa.cbsaPairs rows sdgInput).foldl (fun m p => jsSet m p.1 p.2) [] := by
  have hrows : rows ≠ [] := by
    intro he
    subst he
    simp [Msa.groupByArea] at hmem
  refine ⟨?_, valueByName_lookup rows sdgInput area recs hmem, ?_⟩
  · intro h
    rw [Msa.cbsaPairs]
    refine List.mem_filterMap.mpr ⟨(area, recs), hmem, ?_⟩
    simp only [if_neg h]
  · rw [Msa.valueByCbsa, Msa.computeMaps]
    simp only [if_neg hrows]
    rw [computeMaps_fst_foldl, foldl_cond_jsSet_filterMap]
    rfl

/-- Witness for C3 on a group whose first row carries the code. -/
theorem c3_witness :
    Msa.groupCode (normalizeSdg "1")
        [[("area_name", "A"), ("sdg", "1"), ("sdg_lq", "10"), ("GEOID", "123")],
         [("area_name", "A"), ("sdg", "1"), ("sdg_lq", "20")]] = "123" ∧
    (Msa.groupCode (normalizeSdg "1")
        [[("area_name", "A"), ("sdg", "1"), ("sdg_lq", "10"), ("GEOID", "123")],
         [("area_name", "A"), ("sdg", "1"), ("sdg_lq", "20")]],
      Msa.groupVal (normalizeSdg "1")
        [[("area_name", "A"), ("sdg", "1"), ("sdg_lq", "10"), ("GEOID", "123")],
         [("area_name", "A"), ("sdg", "1"), ("sdg_lq", "20")]]) ∈
      Msa.cbsaPairs
        [[("area_name", "A"), ("sdg", "1"), ("sdg_lq", "10"), ("GEOID", "123")],
         [("area_name", "A"), ("sdg", "1"), ("sdg_lq", "20")]] "1" :=
  ⟨by decide,
    (c3_code_from_designated_row
        [[("area_name", "A"), ("sdg", "1"), ("sdg_lq", "10"), ("GEOID", "123")],
         [("area_name", "A"), ("sdg", "1"), ("sdg_lq", "20")]] "1" "a"
        [[("area_name", "A"), ("sdg", "1"), ("sdg_lq", "10"), ("GEOID", "123")],
         [("area_name", "A"), ("sdg", "1"), ("sdg_lq", "20")]]
        (by decide)).1 (by decide)⟩

/-! ## Character-level case lemmas (for C9) -/

theorem char_toNat_ofNat_valid (n : ℕ) (h : n.isValidChar) : (Char.ofNat n).toNat = n := by
  unfold Char.ofNat
  rw [dif_pos h]
  rfl

theorem char_eq_of_toNat_eq {a b : Char} (h : a.toNat = b.toNat) : a = b := by
  have ha := Char.ofNat_toNat a
  rw [h, Char.ofNat_toNat] at ha
  exact ha.symm

theorem char_eq_iff_toNat (a b : Char) : a = b ↔ a.toNat = b.toNat :=
  ⟨fun h => h ▸ rfl, char_eq_of_toNat_eq⟩

theorem toLower_eq_of_lower {c : Char} (h : ¬(65 ≤ c.toNat ∧ c.toNat ≤ 90)) :
    Char.toLower c = c := by
  rw [Char.toLower]
  rw [if_neg (by omega)]

theorem toLower_toNat_of_upper {c : Char} (h : 65 ≤ c.toNat ∧ c.toNat ≤ 90) :
    (Char.toLower c).toNat = c.toNat + 32 := by
  rw [Char.toLower, if_pos (by omega)]
  exact char_toNat_ofNat_valid _ (Or.inl (by omega))

theorem toLower_notUpper (c : Char) : ¬(65 ≤ (Char.toLower c).toNat ∧
    (Char.toLower c).toNat ≤ 90) := by
  by_cases h : 65 ≤ c.toNat ∧ c.toNat ≤ 90
  · rw [toLower_toNat_of_upper h]
    omega
  · rw [toLower_eq_of_lower h]
    exact h

theorem toLower_toLower (c : Char) : Char.toLower (Char.toLower c) = Char.toLower c :=
  toLower_eq_of_lower (toLower_notUpper c)

theorem toUpper_eq_of_not_lower {c : Char} (h : ¬(97 ≤ c.toNat ∧ c.toNat ≤ 122)) :
    Char.toUpper c = c := by
  rw [Char.toUpper]
  rw [if_neg (by omega)]

theorem toUpper_toNat_of_lower {c : Char} (h : 97 ≤ c.toNat ∧ c.toNat ≤ 122) :
    (Char.toUpper c).toNat = c.toNat - 32 := by
  rw [Char.toUpper, if_pos (by omega)]
  exact char_toNat_ofNat_valid _ (Or.inl (by omega))

theorem toLower_toUpper (c : Char) : Char.toLower (Char.toUpper c) = Char.toLower c := by
  by_cases h : 97 ≤ c.toNat ∧ c.toNat ≤ 122
  · have h1 : (Char.toUpper c).toNat = c.toNat - 32 := toUpper_toNat_of_lower h
    have h2 : (Char.toLower (Char.toUpper c)).toNat = c.toNat := by
      rw [toLower_toNat_of_upper (by omega)]
      omega
    have h3 : Char.toLower c = c := toLower_eq_of_lower (by omega)
    rw [h3]
    exact char_eq_of_toNat_eq h2
  · rw [toUpper_eq_of_not_lower h]

theorem toNat_toUpper_cases (c : Char) :
    (Char.toUpper c).toNat = c.toNat ∨
      ((Char.toUpper c).toNat = c.toNat - 32 ∧ 97 ≤ c.toNat ∧ c.toNat ≤ 122) := by
  by_cases h : 97 ≤ c.toNat ∧ c.toNat ≤ 122
  · exact Or.inr ⟨toUpper_toNat_of_lower h, h⟩
  · exact Or.inl (by rw [toUpper_eq_of_not_lower h])

theorem wsChar_iff (c : Char) :
    wsChar c = true ↔ c.toNat = 32 ∨ c.toNat = 9 ∨ c.toNat = 13 ∨ c.toNat = 10 := by
  rw [wsChar, Char.isWhitespace]
  simp only [Bool.or_eq_true, decide_eq_true_eq, char_eq_iff_toNat,
    show (' ' : Char).toNat = 32 from rfl, show ('\t' : Char).toNat = 9 from rfl,
    show ('\r' : Char).toNat = 13 from rfl, show ('\n' : Char).toNat = 10 from rfl]
  tauto

theorem isQuoteB_iff (c : Char) : isQuoteB c = true ↔ c.toNat = 34 ∨ c.toNat = 39 := by
  rw [isQuoteB]
  simp only [Bool.or_eq_true, beq_iff_eq, char_eq_iff_toNat, Nat.beq_eq_true_eq,
    show ('"' : Char).toNat = 34 from rfl]

theorem wsChar_toUpper (c : Char) : wsChar (Char.toUpper c) = wsChar c := by
  rcases toNat_toUpper_cases c with h | ⟨h, h1, h2⟩
  · cases hw : wsChar c
    · rw [← Bool.not_eq_true] at hw ⊢
      rw [wsChar_iff] at hw ⊢
      omega
    · rw [wsChar_iff] at hw ⊢
      omega
  · have : wsChar c = false := by
      rw [← Bool.not_eq_true, wsChar_iff]
      omega
    rw [this, ← Bool.not_eq_true, wsChar_iff]
    omega

theorem isQuoteB_toUpper (c : Char) : isQuoteB (Char.toUpper c) = isQuoteB c := by
  rcases toNat_toUpper_cases c with h | ⟨h, h1, h2⟩
  · cases hw : isQuoteB c
    · rw [← Bool.not_eq_true] at hw ⊢
      rw [isQuoteB_iff] at hw ⊢
      omega
    · rw [isQuoteB_iff] at hw ⊢
      omega
  · have : isQuoteB c = false := by
      rw [← Bool.not_eq_true, isQuoteB_iff]
      omega
    rw [this, ← Bool.not_eq_true, isQuoteB_iff]
    omega

theorem isDigit_iff (c : Char) : c.isDigit = true ↔ 48 ≤ c.toNat ∧ c.toNat ≤ 57 := by
  rw [Char.isDigit]
  simp only [Bool.and_eq_true, decide_eq_true_eq]
  constructor
  · intro ⟨h1, h2⟩
    exact ⟨h1, h2⟩
  · intro ⟨h1, h2⟩
    exact ⟨h1, h2⟩

theorem digit_toLower {c : Char} (h : c.isDigit = true) : Char.toLower c = c := by
  rw [isDigit_iff] at h
  exact toLower_eq_of_lower (by omega)

theorem digit_not_ws {c : Char} (h : c.isDigit = true) : wsChar c = false := by
  rw [isDigit_iff] at h
  rw [← Bool.not_eq_true, wsChar_iff]
  omega

theorem digit_not_quote {c : Char} (h : c.isDigit = true) : isQuoteB c = false := by
  rw [isDigit_iff] at h
  rw [← Bool.not_eq_true, isQuoteB_iff]
  omega

theorem digit_ne_dot {c : Char} (h : c.isDigit = true) : c ≠ '.' := by
  rw [isDigit_iff] at h
  intro he
  have h46 : c.toNat = 46 := by rw [he]; decide
  omega

theorem digit_ne_dashes {c : Char} (h : c.isDigit = true) : c ≠ '–' ∧ c ≠ '—' := by
  rw [isDigit_iff] at h
  constructor
  · intro he
    have hn : c.toNat = 8211 := by rw [he]; decide
    omega
  · intro he
    have hn : c.toNat = 8212 := by rw [he]; decide
    omega

/-! ## Trimming and collapsing lemmas (for C9) -/

theorem mapSelf {α : Type} (f : α → α) (l : List α) (h : ∀ c ∈ l, f c = c) :
    l.map f = l := by
  induction l with
  | nil => rfl
  | cons c rest ih =>
    rw [List.map_cons, h c (List.mem_cons_self _ _),
      ih (fun d hd => h d (List.mem_cons_of_mem _ hd))]

theorem dropWhile_eq_self_of_head (p : Char → Bool) (l : List Char)
    (h : ∀ c, l.head? = some c → p c = false) : l.dropWhile p = l := by
  cases l with
  | nil => rfl
  | cons c rest =>
    rw [List.dropWhile_cons, h c rfl]
    simp

theorem head?_dropWhile_not (p : Char → Bool) (l : List Char) (c : Char)
    (h : (l.dropWhile p).head? = some c) : p c = false := by
  induction l with
  | nil => simp at h
  | cons d rest ih =>
    rw [List.dropWhile_cons] at h
    by_cases hp : p d = true
    · rw [if_pos hp] at h
      exact ih h
    · rw [if_neg hp] at h
      rw [List.head?_cons, Option.some_inj] at h
      subst h
      simpa using hp

theorem mem_dropWhile (p : Char → Bool) (l : List Char) (c : Char)
    (h : c ∈ l.dropWhile p) : c ∈ l := by
  induction l with
  | nil => simp at h
  | cons d rest ih =>
    rw [List.dropWhile_cons] at h
    by_cases hp : p d = true
    · rw [if_pos hp] at h
      exact List.mem_cons_of_mem _ (ih h)
    · rwa [if_neg hp] at h

theorem mem_dropTrailWhile (p : Char → Bool) (l : List Char) (c : Char)
    (h : c ∈ dropTrailWhile p l) : c ∈ l := by
  induction l with
  | nil => simp [dropTrailWhile] at h
  | cons d rest ih =>
    rw [dropTrailWhile] at h
    cases hr : dropTrailWhile p rest with
    | nil =>
      rw [hr] at h
      by_cases hp : p d = true
      · rw [if_pos hp] at h
        simp at h
      · rw [if_neg hp] at h
        rw [List.mem_singleton] at h
        subst h
        exact List.mem_cons_self _ _
    | cons e r2 =>
      rw [hr] at h
      rcases List.mem_cons.mp h with rfl | h2
      · exact List.mem_cons_self _ _
      · exact List.mem_cons_of_mem _ (ih (hr ▸ h2))

theorem head?_dropTrailWhile (p : Char → Bool) (l : List Char) (c : Char)
    (h : (dropTrailWhile p l).head? = some c) : l.head? = some c := by
  cases l with
  | nil => simp [dropTrailWhile] at h
  | cons d rest =>
    rw [dropTrailWhile] at h
    cases hr : dropTrailWhile p rest with
    | nil =>
      rw [hr] at h
      by_cases hp : p d = true
      · rw [if_pos hp] at h
        simp at h
      · rw [if_neg hp] at h
        rw [List.head?_cons, Option.some_inj] at h
        subst h
        rfl
    | cons e r2 =>
      rw [hr] at h
      rw [List.head?_cons, Option.some_inj] at h
      subst h
      rfl

theorem getLast?_cons_ne_nil (c : Char) (r : List Char) (h : r ≠ []) :
    (c :: r).getLast? = r.getLast? := by
  cases r with
  | nil => exact absurd rfl h
  | cons e r2 => exact List.getLast?_cons_cons

theorem getLast?_dropTrailWhile_not (p : Char → Bool) (l : List Char) (c : Char)
    (h : (dropTrailWhile p l).getLast? = some c) : p c = false := by
  induction l with
  | nil => simp [dropTrailWhile] at h
  | cons d rest ih =>
    rw [dropTrailWhile] at h
    cases hr : dropTrailWhile p rest with
    | nil =>
      rw [hr] at h
      by_cases hp : p d = true
      · rw [if_pos hp] at h
        simp at h
      · rw [if_neg hp] at h
        simp only [List.getLast?_singleton, Option.some_inj] at h
        subst h
        simpa using hp
    | cons e r2 =>
      rw [hr] at h
      rw [getLast?_cons_ne_nil d (e :: r2) (by simp)] at h
      exact ih (hr ▸ h)

theorem dropTrailWhile_eq_self_of_getLast (p : Char → Bool) (l : List Char)
    (h : ∀ c, l.getLast? = some c → p c = false) : dropTrailWhile p l = l := by
  induction l with
  | nil => rfl
  | cons d rest ih =>
    rw [dropTrailWhile]
    cases hrest : rest with
    | nil =>
      simp only [dropTrailWhile]
      rw [if_neg (by simpa using h d (by rw [hrest]; rfl))]
    | cons e r2 =>
      have hr : dropTrailWhile p rest = rest := by
        refine ih ?_
        intro c hc
        refine h c ?_
        rw [getLast?_cons_ne_nil d rest (by rw [hrest]; simp)]
        exact hc
      rw [hrest] at hr
      rw [hr]

/-! ## Whitespace-collapse lemmas (for C9) -/

/-- The normal form `replace(/\s+/g, " ")` produces: no two adjacent
whitespace characters, and every whitespace character is a space. -/
def wsNormal (l : List Char) : Prop :=
  List.Chain' (fun a b => ¬(wsChar a = true ∧ wsChar b = true)) l ∧
    ∀ c ∈ l, wsChar c = true → c = ' '

theorem mem_collapseWsAux (b : Bool) (l : List Char) (c : Char)
    (h : c ∈ collapseWsAux b l) : c = ' ' ∨ c ∈ l := by
  induction l generalizing b with
  | nil => simp [collapseWsAux] at h
  | cons d rest ih =>
    rw [collapseWsAux] at h
    by_cases hw : wsChar d = true
    · rw [if_pos hw] at h
      cases b with
      | true =>
        rcases ih true (by simpa using h) with h2 | h2
        · exact Or.inl h2
        · exact Or.inr (List.mem_cons_of_mem _ h2)
      | false =>
        rcases List.mem_cons.mp (by simpa using h) with rfl | h2
        · exact Or.inl rfl
        · rcases ih true h2 with h3 | h3
          · exact Or.inl h3
          · exact Or.inr (List.mem_cons_of_mem _ h3)
    · rw [if_neg hw] at h
      rcases List.mem_cons.mp h with rfl | h2
      · exact Or.inr (List.mem_cons_self _ _)
      · rcases ih false h2 with h3 | h3
        · exact Or.inl h3
        · exact Or.inr (List.mem_cons_of_mem _ h3)

theorem head?_collapseWsAux_true (l : List Char) (c : Char)
    (h : (collapseWsAux true l).head? = some c) : wsChar c = false := by
  induction l with
  | nil => simp [collapseWsAux] at h
  | cons d rest ih =>
    rw [collapseWsAux] at h
    by_cases hw : wsChar d = true
    · rw [if_pos hw] at h
      exact ih (by simpa using h)
    · rw [if_neg hw] at h
      rw [List.head?_cons, Option.some_inj] at h
      subst h
      simpa using hw

theorem wsNormal_collapseWsAux (b : Bool) (l : List Char) :
    wsNormal (collapseWsAux b l) := by
  induction l generalizing b with
  | nil => exact ⟨List.chain'_nil, by simp [collapseWsAux]⟩
  | cons d rest ih =>
    rw [collapseWsAux]
    by_cases hw : wsChar d = true
    · rw [if_pos hw]
      cases b with
      | true => exact ih true
      | false =>
        obtain ⟨hc, hm⟩ := ih true
        refine ⟨List.chain'_cons'.mpr ⟨?_, hc⟩, ?_⟩
        · intro e he hpair
          exact absurd hpair.2 (by simp [head?_collapseWsAux_true _ _ he])
        · intro c hcm hws
          rcases List.mem_cons.mp hcm with rfl | h2
          · rfl
          · exact hm c h2 hws
    · rw [if_neg hw]
      obtain ⟨hc, hm⟩ := ih false
      refine ⟨List.chain'_cons'.mpr ⟨?_, hc⟩, ?_⟩
      · intro e he hpair
        exact absurd hpair.1 (by simpa using hw)
      · intro c hcm hws
        rcases List.mem_cons.mp hcm with rfl | h2
        · exact absurd hws (by simpa using hw)
        · exact hm c h2 hws

theorem collapseWsAux_eq_self (l : List Char) (b : Bool) (hn : wsNormal l)
    (hb : b = true → ∀ c, l.head? = some c → wsChar c = false) :
    collapseWsAux b l = l := by
  induction l generalizing b with
  | nil => rfl
  | cons d rest ih =>
    obtain ⟨hc, hm⟩ := hn
    rw [collapseWsAux]
    by_cases hw : wsChar d = true
    · cases b with
      | true => exact absurd (hb rfl d rfl) (by simp [hw])
      | false =>
        rw [if_pos hw, if_neg (by simp : ¬(false = true))]
        have hds : d = ' ' := hm d (List.mem_cons_self _ _) hw
        rw [← hds]
        congr 1
        refine ih true ⟨(List.chain'_cons'.mp hc).2,
          fun c h2 hws => hm c (List.mem_cons_of_mem _ h2) hws⟩ ?_
        intro _ c hhead
        have := (List.chain'_cons'.mp hc).1 c (by rw [hhead]; rfl)
        by_contra hcw
        rw [Bool.not_eq_false] at hcw
        exact this ⟨hw, hcw⟩
    · rw [if_neg hw]
      congr 1
      refine ih false ⟨(List.chain'_cons'.mp hc).2,
        fun c h2 hws => hm c (List.mem_cons_of_mem _ h2) hws⟩ (by simp)

theorem wsNormal_dropWhile (p : Char → Bool) (l : List Char) (hn : wsNormal l) :
    wsNormal (l.dropWhile p) := by
  induction l with
  | nil => exact hn
  | cons d rest ih =>
    rw [List.dropWhile_cons]
    by_cases hp : p d = true
    · rw [if_pos hp]
      exact ih ⟨(List.chain'_cons'.mp hn.1).2,
        fun c h2 hws => hn.2 c (List.mem_cons_of_mem _ h2) hws⟩
    · rwa [if_neg hp]

theorem wsNormal_dropTrailWhile (p : Char → Bool) (l : List Char) (hn : wsNormal l) :
    wsNormal (dropTrailWhile p l) := by
  induction l with
  | nil => exact hn
  | cons d rest ih =>
    obtain ⟨hc, hm⟩ := hn
    have hrn : wsNormal rest := ⟨(List.chain'_cons'.mp hc).2,
      fun c h2 hws => hm c (List.mem_cons_of_mem _ h2) hws⟩
    rw [dropTrailWhile]
    cases hr : dropTrailWhile p rest with
    | nil =>
      by_cases hp : p d = true
      · rw [if_pos hp]
        exact ⟨List.chain'_nil, by simp⟩
      · rw [if_neg hp]
        refine ⟨List.chain'_singleton _, ?_⟩
        intro c h2 hws
        rw [List.mem_singleton] at h2
        subst h2
        exact hm c (List.mem_cons_self _ _) hws
    | cons e r2 =>
      obtain ⟨hc2, hm2⟩ := hr ▸ ih hrn
      refine ⟨List.chain'_cons'.mpr ⟨?_, hc2⟩, ?_⟩
      · intro b hb
        have hhead : rest.head? = some b :=
          head?_dropTrailWhile p rest b (by rw [hr]; exact hb)
        exact (List.chain'_cons'.mp hc).1 b hhead
      · intro c h2 hws
        rcases List.mem_cons.mp h2 with rfl | h3
        · exact hm c (List.mem_cons_self _ _) hws
        · exact hm c (List.mem_cons_of_mem _
            (mem_dropTrailWhile p rest c (by rw [hr]; exact h3))) hws

theorem wsNormal_jsTrimL_collapseWs (x : List Char) :
    wsNormal (jsTrimL (collapseWs x)) :=
  wsNormal_dropTrailWhile _ _ (wsNormal_dropWhile _ _ (wsNormal_collapseWsAux false x))

/-! ## `canon` image lemmas (for C9) -/

theorem mem_canonL (l : List Char) (c : Char) (h : c ∈ canonL l) :
    Char.toLower c = c ∧ c ≠ '.' ∧ c ≠ '–' ∧ c ≠ '—' := by
  rw [canonL] at h
  have h2 := mem_dropWhile _ _ _ (mem_dropTrailWhile _ _ _ h)
  rcases mem_collapseWsAux _ _ _ h2 with rfl | h3
  · exact ⟨by decide, by decide, by decide, by decide⟩
  · rw [List.mem_filter] at h3
    obtain ⟨h4, hdot⟩ := h3
    obtain ⟨d, hdl, rfl⟩ := List.mem_map.mp h4
    obtain ⟨e, _, rfl⟩ := List.mem_map.mp hdl
    refine ⟨?_, by simpa using hdot, ?_, ?_⟩
    · rw [dashFix]
      by_cases hd : Char.toLower e = '–' ∨ Char.toLower e = '—'
      · rw [if_pos hd]
        decide
      · rw [if_neg hd]
        exact toLower_toLower e
    · rw [dashFix]
      by_cases hd : Char.toLower e = '–' ∨ Char.toLower e = '—'
      · rw [if_pos hd]
        decide
      · rw [if_neg hd]
        intro he
        exact hd (Or.inl he)
    · rw [dashFix]
      by_cases hd : Char.toLower e = '–' ∨ Char.toLower e = '—'
      · rw [if_pos hd]
        decide
      · rw [if_neg hd]
        intro he
        exact hd (Or.inr he)

theorem head?_canonL_not_ws (l : List Char) (c : Char) (h : (canonL l).head? = some c) :
    wsChar c = false := by
  rw [canonL] at h
  exact head?_dropWhile_not _ _ _ (head?_dropTrailWhile _ _ _ h)

theorem getLast?_canonL_not_ws (l : List Char) (c : Char)
    (h : (canonL l).getLast? = some c) : wsChar c = false := by
  rw [canonL] at h
  exact getLast?_dropTrailWhile_not _ _ _ h

theorem canonL_canonL (l : List Char) : canonL (canonL l) = canonL l := by
  have hmem := mem_canonL l
  have s1 : (canonL l).map Char.toLower = canonL l :=
    mapSelf _ _ (fun c hc => (hmem c hc).1)
  have s2 : ((canonL l).map Char.toLower).map dashFix = canonL l := by
    rw [s1]
    refine mapSelf _ _ (fun c hc => ?_)
    rw [dashFix, if_neg ?_]
    rintro (he | he)
    · exact (hmem c hc).2.2.1 he
    · exact (hmem c hc).2.2.2 he
  have s3 : (((canonL l).map Char.toLower).map dashFix).filter (fun c => c ≠ '.') =
      canonL l := by
    rw [s2]
    refine List.filter_eq_self.mpr (fun c hc => ?_)
    simpa using (hmem c hc).2.1
  have hwn : wsNormal (canonL l) := wsNormal_jsTrimL_collapseWs _
  have s4 : collapseWs ((((canonL l).map Char.toLower).map dashFix).filter
      (fun c => c ≠ '.')) = canonL l := by
    rw [s3, collapseWs]
    exact collapseWsAux_eq_self _ _ hwn (by simp)
  show jsTrimL (collapseWs ((((canonL l).map Char.toLower).map dashFix).filter
      (fun c => c ≠ '.'))) = canonL l
  rw [s4, jsTrimL, dropWhile_eq_self_of_head _ _ (head?_canonL_not_ws l)]
  exact dropTrailWhile_eq_self_of_getLast _ _ (getLast?_canonL_not_ws l)

theorem canonL_map_toUpper (l : List Char) : canonL (l.map Char.toUpper) = canonL l := by
  show jsTrimL (collapseWs ((((l.map Char.toUpper).map Char.toLower).map dashFix).filter
      (fun c => c ≠ '.'))) = canonL l
  have : (l.map Char.toUpper).map Char.toLower = l.map Char.toLower := by
    rw [List.map_map]
    exact List.map_congr_left (fun c _ => toLower_toUpper c)
  rw [this]
  rfl

/-! ## C9: conditional idempotence of `normalizeSdg` -/

theorem noQuoteEnds_head (l : List Char) (h : noQuoteEnds l = true) (c : Char)
    (hc : l.head? = some c) : isQuoteB c = false := by
  rw [noQuoteEnds, Bool.and_eq_true] at h
  have h1 := h.1
  rw [hc] at h1
  simpa using h1

theorem noQuoteEnds_getLast (l : List Char) (h : noQuoteEnds l = true) (c : Char)
    (hc : l.getLast? = some c) : isQuoteB c = false := by
  rw [noQuoteEnds, Bool.and_eq_true] at h
  have h2 := h.2
  rw [hc] at h2
  simpa using h2

theorem collapseWsAux_eq_self_of_not_ws (l : List Char) (b : Bool)
    (h : ∀ c ∈ l, wsChar c = false) : collapseWsAux b l = l := by
  induction l generalizing b with
  | nil => rfl
  | cons d rest ih =>
    rw [collapseWsAux, if_neg (by simp [h d (List.mem_cons_self _ _)])]
    rw [ih _ (fun c hc => h c (List.mem_cons_of_mem _ hc))]

theorem jsTrimL_eq_self (l : List Char)
    (hh : ∀ c, l.head? = some c → wsChar c = false)
    (hl : ∀ c, l.getLast? = some c → wsChar c = false) : jsTrimL l = l := by
  rw [jsTrimL, dropWhile_eq_self_of_head _ _ hh]
  exact dropTrailWhile_eq_self_of_getLast _ _ hl

theorem stripQuoteEnds_eq_self (l : List Char)
    (hh : ∀ c, l.head? = some c → isQuoteB c = false)
    (hl : ∀ c, l.getLast? = some c → isQuoteB c = false) : stripQuoteEnds l = l := by
  rw [stripQuoteEnds, dropWhile_eq_self_of_head _ _ hh]
  exact dropTrailWhile_eq_self_of_getLast _ _ hl

theorem canon_unquote_strUpper (x : String)
    (hq : noQuoteEnds (canon (unquote x)).toList = true) :
    canon (unquote (strUpper (canon (unquote x)))) = canon (unquote x) := by
  have hL : (canon (unquote x)).toList = canonL (stripQuoteEnds (jsTrimL x.toList)) := rfl
  have hup : (strUpper (canon (unquote x))).toList =
      (canon (unquote x)).toList.map Char.toUpper := rfl
  have htrim : jsTrimL ((canon (unquote x)).toList.map Char.toUpper) =
      (canon (unquote x)).toList.map Char.toUpper := by
    refine jsTrimL_eq_self _ ?_ ?_
    · intro c hc
      rw [List.head?_map] at hc
      cases hh : (canon (unquote x)).toList.head? with
      | none => rw [hh] at hc; simp at hc
      | some d =>
        rw [hh] at hc
        rw [show Option.map Char.toUpper (some d) = some (Char.toUpper d) from rfl, Option.some_inj] at hc
        subst hc
        rw [wsChar_toUpper]
        rw [hL] at hh
        exact head?_canonL_not_ws _ d hh
    · intro c hc
      rw [List.getLast?_map] at hc
      cases hh : (canon (unquote x)).toList.getLast? with
      | none => rw [hh] at hc; simp at hc
      | some d =>
        rw [hh] at hc
        rw [show Option.map Char.toUpper (some d) = some (Char.toUpper d) from rfl, Option.some_inj] at hc
        subst hc
        rw [wsChar_toUpper]
        rw [hL] at hh
        exact getLast?_canonL_not_ws _ d hh
  have hstrip : stripQuoteEnds ((canon (unquote x)).toList.map Char.toUpper) =
      (canon (unquote x)).toList.map Char.toUpper := by
    refine stripQuoteEnds_eq_self _ ?_ ?_
    · intro c hc
      rw [List.head?_map] at hc
      cases hh : (canon (unquote x)).toList.head? with
      | none => rw [hh] at hc; simp at hc
      | some d =>
        rw [hh] at hc
        rw [show Option.map Char.toUpper (some d) = some (Char.toUpper d) from rfl, Option.some_inj] at hc
        subst hc
        rw [isQuoteB_toUpper]
        exact noQuoteEnds_head _ hq d hh
    · intro c hc
      rw [List.getLast?_map] at hc
      cases hh : (canon (unquote x)).toList.getLast? with
      | none => rw [hh] at hc; simp at hc
      | some d =>
        rw [hh] at hc
        rw [show Option.map Char.toUpper (some d) = some (Char.toUpper d) from rfl, Option.some_inj] at hc
        subst hc
        rw [isQuoteB_toUpper]
        exact noQuoteEnds_getLast _ hq d hh
  show String.mk (canonL (stripQuoteEnds (jsTrimL
      ((strUpper (canon (unquote x))).toList)))) = canon (unquote x)
  rw [hup, htrim, hstrip, canonL_map_toUpper, hL, canonL_canonL]
  rfl

theorem normalizeSdg_eval (raw : String) :
    normalizeSdg raw =
      if canon (unquote raw) = "" ∨ canon (unquote raw) = "overall" ∨
          canon (unquote raw) = "all" ∨ canon (unquote raw) = "total" then "overall"
      else
        match numOnlyDigits (canon (unquote raw)).toList with
        | some ds => "SDG-" ++ padTwo (String.mk ds)
        | none =>
          match sdgDigits (canon (unquote raw)).toList with
          | some ds => "SDG-" ++ padTwo (String.mk ds)
          | none => strUpper (canon (unquote raw)) := rfl

theorem canon_unquote_sdg_pad (a b : Char) (ha : a.isDigit = true) (hb : b.isDigit = true) :
    canon (unquote (String.mk ['S', 'D', 'G', '-', a, b])) =
      String.mk ['s', 'd', 'g', '-', a, b] := by
  have hnw : ∀ c ∈ ['S', 'D', 'G', '-', a, b], wsChar c = false := by
    intro c hc
    rcases List.mem_cons.mp hc with rfl | hc
    · decide
    rcases List.mem_cons.mp hc with rfl | hc
    · decide
    rcases List.mem_cons.mp hc with rfl | hc
    · decide
    rcases List.mem_cons.mp hc with rfl | hc
    · decide
    rcases List.mem_cons.mp hc with rfl | hc
    · exact digit_not_ws ha
    rcases List.mem_cons.mp hc with rfl | hc
    · exact digit_not_ws hb
    · simp at hc
  have htrim : jsTrimL ['S', 'D', 'G', '-', a, b] = ['S', 'D', 'G', '-', a, b] := by
    refine jsTrimL_eq_self _ ?_ ?_
    · intro c hc
      rw [List.head?_cons, Option.some_inj] at hc
      subst hc
      decide
    · intro c hc
      have : (['S', 'D', 'G', '-', a, b] : List Char).getLast? = some b := by
        rfl
      rw [this, Option.some_inj] at hc
      subst hc
      exact digit_not_ws hb
  have hstrip : stripQuoteEnds ['S', 'D', 'G', '-', a, b] = ['S', 'D', 'G', '-', a, b] := by
    refine stripQuoteEnds_eq_self _ ?_ ?_
    · intro c hc
      rw [List.head?_cons, Option.some_inj] at hc
      subst hc
      decide
    · intro c hc
      have : (['S', 'D', 'G', '-', a, b] : List Char).getLast? = some b := rfl
      rw [this, Option.some_inj] at hc
      subst hc
      exact digit_not_quote hb
  show String.mk (canonL (stripQuoteEnds (jsTrimL ['S', 'D', 'G', '-', a, b]))) = _
  rw [htrim, hstrip]
  have hmap : (['S', 'D', 'G', '-', a, b] : List Char).map Char.toLower =
      ['s', 'd', 'g', '-', a, b] := by
    simp only [List.map_cons, List.map_nil, digit_toLower ha, digit_toLower hb]
    rfl
  have hlow : ∀ c ∈ (['s', 'd', 'g', '-', a, b] : List Char), wsChar c = false := by
    intro c hc
    rcases List.mem_cons.mp hc with rfl | hc
    · decide
    rcases List.mem_cons.mp hc with rfl | hc
    · decide
    rcases List.mem_cons.mp hc with rfl | hc
    · decide
    rcases List.mem_cons.mp hc with rfl | hc
    · decide
    rcases List.mem_cons.mp hc with rfl | hc
    · exact digit_not_ws ha
    rcases List.mem_cons.mp hc with rfl | hc
    · exact digit_not_ws hb
    · simp at hc
  have hdashes : (['s', 'd', 'g', '-', a, b] : List Char).map dashFix =
      ['s', 'd', 'g', '-', a, b] := by
    refine mapSelf _ _ ?_
    intro c hc
    rw [dashFix, if_neg ?_]
    rcases List.mem_cons.mp hc with rfl | hc
    · decide
    rcases List.mem_cons.mp hc with rfl | hc
    · decide
    rcases List.mem_cons.mp hc with rfl | hc
    · decide
    rcases List.mem_cons.mp hc with rfl | hc
    · decide
    rcases List.mem_cons.mp hc with rfl | hc
    · rintro (he | he)
      · exact (digit_ne_dashes ha).1 he
      · exact (digit_ne_dashes ha).2 he
    rcases List.mem_cons.mp hc with rfl | hc
    · rintro (he | he)
      · exact (digit_ne_dashes hb).1 he
      · exact (digit_ne_dashes hb).2 he
    · simp at hc
  have hfilter : (['s', 'd', 'g', '-', a, b] : List Char).filter (fun c => c ≠ '.') =
      ['s', 'd', 'g', '-', a, b] := by
    refine List.filter_eq_self.mpr ?_
    intro c hc
    rcases List.mem_cons.mp hc with rfl | hc
    · decide
    rcases List.mem_cons.mp hc with rfl | hc
    · decide
    rcases List.mem_cons.mp hc with rfl | hc
    · decide
    rcases List.mem_cons.mp hc with rfl | hc
    · decide
    rcases List.mem_cons.mp hc with rfl | hc
    · simpa using digit_ne_dot ha
    rcases List.mem_cons.mp hc with rfl | hc
    · simpa using digit_ne_dot hb
    · simp at hc
  show String.mk (jsTrimL (collapseWs ((((['S', 'D', 'G', '-', a, b] : List Char).map
      Char.toLower).map dashFix).filter (fun c => c ≠ '.')))) = _
  rw [hmap, hdashes, hfilter, collapseWs, collapseWsAux_eq_self_of_not_ws _ _ hlow]
  rw [jsTrimL_eq_self _ ?_ ?_]
  · intro c hc
    rw [List.head?_cons, Option.some_inj] at hc
    subst hc
    decide
  · intro c hc
    have : (['s', 'd', 'g', '-', a, b] : List Char).getLast? = some b := rfl
    rw [this, Option.some_inj] at hc
    subst hc
    exact digit_not_ws hb

theorem numOnlyDigits_facts (l ds : List Char) (h : numOnlyDigits l = some ds) :
    ds = l ∧ ds ≠ [] ∧ ds.length ≤ 2 ∧ ds.all Char.isDigit = true := by
  rw [numOnlyDigits] at h
  split at h
  · obtain rfl : l = ds := Option.some_inj.mp h
    rename_i hcond
    exact ⟨rfl, hcond.1, hcond.2.1, hcond.2.2⟩
  · exact absurd h (by simp)

theorem sdgDigits_facts (l ds : List Char) (h : sdgDigits l = some ds) :
    ds ≠ [] ∧ ds.length ≤ 2 ∧ ds.all Char.isDigit = true := by
  unfold sdgDigits at h
  split at h
  · split at h
    · rename_i hcond
      obtain rfl := Option.some_inj.mp h
      exact hcond
    · exact absurd h (by simp)
  · exact absurd h (by simp)

theorem normalizeSdg_sdg_pad (ds : List Char) (hne : ds ≠ []) (hlen : ds.length ≤ 2)
    (hdig : ds.all Char.isDigit = true) :
    normalizeSdg ("SDG-" ++ padTwo (String.mk ds)) = "SDG-" ++ padTwo (String.mk ds) := by
  obtain ⟨a, b, hab, ha, hb⟩ :
      ∃ a b, padStartL 2 '0' ds = [a, b] ∧ a.isDigit = true ∧ b.isDigit = true := by
    rcases ds with _ | ⟨d1, _ | ⟨d2, _ | ⟨d3, rest⟩⟩⟩
    · exact absurd rfl hne
    · rw [List.all_cons, Bool.and_eq_true] at hdig
      exact ⟨'0', d1, rfl, by decide, hdig.1⟩
    · rw [List.all_cons, Bool.and_eq_true, List.all_cons, Bool.and_eq_true] at hdig
      exact ⟨d1, d2, rfl, hdig.1, hdig.2.1⟩
    · simp at hlen
  have hR : ("SDG-" ++ padTwo (String.mk ds)) = String.mk ['S', 'D', 'G', '-', a, b] := by
    show String.mk ("SDG-".toList ++ padStartL 2 '0' ds) = _
    rw [hab]
    rfl
  have hcond : ¬(String.mk ['s', 'd', 'g', '-', a, b] = "" ∨
      String.mk ['s', 'd', 'g', '-', a, b] = "overall" ∨
      String.mk ['s', 'd', 'g', '-', a, b] = "all" ∨
      String.mk ['s', 'd', 'g', '-', a, b] = "total") := by
    rintro (h | h | h | h) <;>
      · have := congrArg String.toList h
        simp at this
  rw [hR, normalizeSdg_eval, canon_unquote_sdg_pad a b ha hb, if_neg hcond]
  have hnum : numOnlyDigits (String.mk ['s', 'd', 'g', '-', a, b]).toList = none := by
    show numOnlyDigits ['s', 'd', 'g', '-', a, b] = none
    rw [numOnlyDigits, if_neg]
    rintro ⟨-, hl2, -⟩
    simp at hl2
  have hsep : sdgSep ['-', a, b] = [a, b] := by
    rw [sdgSep, if_pos (Or.inl rfl)]
  have hsdg : sdgDigits (String.mk ['s', 'd', 'g', '-', a, b]).toList = some [a, b] := by
    show (if (sdgSep ['-', a, b] ≠ [] ∧ (sdgSep ['-', a, b]).length ≤ 2 ∧
        (sdgSep ['-', a, b]).all Char.isDigit) then some (sdgSep ['-', a, b]) else none) =
      some [a, b]
    rw [hsep, if_pos ⟨by simp, by simp, by simp [ha, hb]⟩]
  simp only [hnum, hsdg]
  rfl

/-- C9 counterexample: `normalizeSdg` is not idempotent.  On `."a` the
dot-removal step of `canon` exposes a leading quote that survives the
first pass (the result is `"A`), and the second pass's `unquote` strips
it, yielding `A`. -/
theorem c9_counterexample :
    normalizeSdg (normalizeSdg ".\"a") ≠ normalizeSdg ".\"a" := by decide

/-- C9 (amended): `normalizeSdg` is idempotent on every input whose
canonicalized, unquoted form neither starts nor ends with a quote
character — dot/dash/whitespace canonicalization exposing an end quote
is the only way a second application can differ. -/
theorem c9_idem_of_no_quote_ends (x : String)
    (hq : noQuoteEnds (canon (unquote x)).toList = true) :
    normalizeSdg (normalizeSdg x) = normalizeSdg x := by
  rw [normalizeSdg_eval x]
  by_cases h1 : canon (unquote x) = "" ∨ canon (unquote x) = "overall" ∨
      canon (unquote x) = "all" ∨ canon (unquote x) = "total"
  · simp only [if_pos h1]
    decide
  · simp only [if_neg h1]
    cases hnum : numOnlyDigits (canon (unquote x)).toList with
    | some ds =>
      obtain ⟨-, hne, hlen, hdig⟩ := numOnlyDigits_facts _ _ hnum
      exact normalizeSdg_sdg_pad ds hne hlen hdig
    | none =>
      cases hsdg : sdgDigits (canon (unquote x)).toList with
      | some ds =>
        obtain ⟨hne, hlen, hdig⟩ := sdgDigits_facts _ _ hsdg
        exact normalizeSdg_sdg_pad ds hne hlen hdig
      | none =>
        rw [normalizeSdg_eval (strUpper (canon (unquote x))),
          canon_unquote_strUpper x hq, if_neg h1]
        simp only [hnum, hsdg]

/-- Witness for C9 at a quote-free input. -/
theorem c9_witness :
    noQuoteEnds (canon (unquote "hello world")).toList = true ∧
    normalizeSdg (normalizeSdg "hello world") = normalizeSdg "hello world" :=
  ⟨by decide, c9_idem_of_no_quote_ends "hello world" (by decide)⟩
